import Mathlib

/-!
# Verification of `polyglot/mapping/embeddings.py`

A shallow embedding of the word2vec loaders and the `Embedding` container of
`polyglot/mapping/embeddings.py` (Python 2: `xrange`, eager `map`, ASCII
`unicode()` coercion), together with proofs and refutations of the spec's
claims about them.

Modelling conventions:
* Bytes are `Nat` (values below 256 in practice); text is `List Char`.
* Python exceptions are the `PyErr` sum type; `Except`/`POut` model fallible
  and possibly non-terminating code.  `POut.hang` marks an input on which the
  Python loop provably never terminates (reading `b''` at EOF forever).
* 32-bit floats read from binary payloads are represented by their IEEE-754
  bit patterns (a `Nat` below 2^32 assembled little-endian), since the claims
  about the binary parser concern framing and byte-exact transport only.
  Floats parsed from text are represented exactly as rationals.
-/

set_option autoImplicit false

namespace Polyglot

/-- Python text: a string as its list of characters. -/
abbrev Str := List Char

/-- A byte of input (meaningful values are below 256). -/
abbrev Byte := Nat

/-- The Python exceptions the embedded code can raise. -/
inductive PyErr : Type where
  | valueError (msg : String)
  | keyError
  | indexError
  | nameError (n : String)
  | unicodeDecodeError
  deriving Repr, DecidableEq

/-- Outcome of running a piece of Python code that may also fail to
terminate: `hang` marks provable non-termination. -/
inductive POut (α : Type) : Type where
  | ok (a : α)
  | err (e : PyErr)
  | hang
  deriving Repr, DecidableEq

instance {ε α : Type} [DecidableEq ε] [DecidableEq α] : DecidableEq (Except ε α)
  | .ok a, .ok b =>
    if h : a = b then .isTrue (by rw [h])
    else .isFalse (by intro hh; cases hh; exact h rfl)
  | .ok _, .error _ => .isFalse (by intro h; cases h)
  | .error _, .ok _ => .isFalse (by intro h; cases h)
  | .error e, .error f =>
    if h : e = f then .isTrue (by rw [h])
    else .isFalse (by intro hh; cases hh; exact h rfl)

/-! ## Byte-level reading primitives -/

/-- `fin.readline()` on a byte stream: the first line, including its
terminating `0x0A` when present, plus the remaining bytes. -/
def readLine : List Byte → List Byte × List Byte
  | [] => ([], [])
  | b :: rest =>
    if b = 10 then ([b], rest)
    else
      let p := readLine rest
      (b :: p.1, p.2)

/-- The token-reading loop of `_from_word2vec_binary` (embeddings.py lines
110-115): read one byte at a time; `0x20` terminates the token (and is not
part of it); `0x0A` is dropped; every other byte is appended.  At end of
input Python's `fin.read(1)` returns `b''` forever, so the `while True` loop
never terminates; `none` models that divergence. -/
def readWord : List Byte → Option (List Byte × List Byte)
  | [] => none
  | b :: rest =>
    if b = 32 then some ([], rest)
    else if b = 10 then readWord rest
    else (readWord rest).map (fun p => (b :: p.1, p.2))

/-- Python 2 `unicode(bytes)` decodes with the ASCII codec: bytes `≥ 0x80`
raise `UnicodeDecodeError`. -/
def asciiDecode (l : List Byte) : Option Str :=
  if ∀ b ∈ l, b < 128 then some (l.map Char.ofNat) else none

/-- Total ASCII view of a byte list (used to state what `asciiDecode`
returns on valid input). -/
def asciiStr (l : List Byte) : Str := l.map Char.ofNat

/-! ## Python `str.split()` (split on whitespace runs) -/

/-- The characters Python's no-argument `str.split()` treats as whitespace. -/
def isPySpace (c : Char) : Bool :=
  c.toNat = 32 || c.toNat = 9 || c.toNat = 10 || c.toNat = 13 ||
  c.toNat = 11 || c.toNat = 12

/-- Worker for `pySplit`: `acc` is the current word, reversed. -/
def pySplitAux : Str → Str → List Str
  | [], acc => if acc = [] then [] else [acc.reverse]
  | c :: rest, acc =>
    if isPySpace c then
      if acc = [] then pySplitAux rest []
      else acc.reverse :: pySplitAux rest []
    else pySplitAux rest (c :: acc)

/-- Python `s.split()`: maximal runs of non-whitespace characters. -/
def pySplit (s : Str) : List Str := pySplitAux s []

/-! ## Integer parsing (Python `int(str)`) -/

/-- Is `c` an ASCII decimal digit? -/
def isDigitC (c : Char) : Bool := 48 ≤ c.toNat && c.toNat ≤ 57

/-- Value of an ASCII digit. -/
def digitVal (c : Char) : Nat := c.toNat - 48

/-- Consume a leading `-`/`+` sign; returns (isNegative, rest). -/
def parseSignF : Str → Bool × Str
  | [] => (false, [])
  | c :: r =>
    if c = '-' then (true, r)
    else if c = '+' then (false, r)
    else (false, c :: r)

/-- Consume a maximal run of digits, returning their values in order plus
the rest of the string. -/
def spanDigits : Str → List Nat × Str
  | [] => ([], [])
  | c :: r =>
    if isDigitC c then
      let p := spanDigits r
      (digitVal c :: p.1, p.2)
    else ([], c :: r)

/-- Big-endian digit fold: `[5,2,5] ↦ 525`. -/
def natOfDigits (ds : List Nat) : Nat := ds.foldl (fun a d => 10 * a + d) 0

/-- Python `int(s)` on an already-whitespace-stripped field: optional sign,
then one or more decimal digits. -/
def parseInt? (s : Str) : Option Int :=
  if (spanDigits (parseSignF s).2).1 = [] ∨ (spanDigits (parseSignF s).2).2 ≠ [] then none
  else
    some (if (parseSignF s).1 then -(natOfDigits (spanDigits (parseSignF s).2).1 : Int)
      else (natOfDigits (spanDigits (parseSignF s).2).1 : Int))

/-- `int(field)`, raising `ValueError` as Python does on a bad literal. -/
def parseIntE (s : Str) : Except PyErr Int :=
  match parseInt? s with
  | some n => .ok n
  | none => .error (.valueError ("invalid literal for int() with base 10: " ++ String.mk s))

/-- `vocab_size, layer1_size = map(int, header.split())` followed by the
`np.zeros((vocab_size, layer1_size))` allocation (which raises `ValueError`
on a negative dimension): yields the two sizes as naturals or the Python
error.  Python 2's eager `map` raises the `int()` error before the unpack
error. -/
def parseDims (header : Str) : Except PyErr (Nat × Nat) := do
  let ints ← (pySplit header).mapM parseIntE
  match ints with
  | [a, b] =>
    if a < 0 ∨ b < 0 then .error (.valueError "negative dimensions are not allowed")
    else .ok (a.toNat, b.toNat)
  | [] => .error (.valueError "need more than 0 values to unpack")
  | [_] => .error (.valueError "need more than 1 value to unpack")
  | _ => .error (.valueError "too many values to unpack")

/-! ## numpy primitives used by the binary reader -/

/-- Little-endian 32-bit word from four bytes. -/
def le32 (b0 b1 b2 b3 : Byte) : Nat := b0 + 256 * (b1 + 256 * (b2 + 256 * b3))

/-- Group a byte list into little-endian 32-bit words; `none` when the
length is not a multiple of 4 (numpy: "string size must be a multiple of
element size"). -/
def chunk4 : List Byte → Option (List Nat)
  | [] => some []
  | b0 :: b1 :: b2 :: b3 :: rest => (chunk4 rest).map (le32 b0 b1 b2 b3 :: ·)
  | _ => none

/-- Total variant of `chunk4` that drops a ragged tail (used only to state
results about well-formed payloads). -/
def leWords : List Byte → List Nat
  | b0 :: b1 :: b2 :: b3 :: rest => le32 b0 b1 b2 b3 :: leWords rest
  | _ => []

/-- `np.fromstring(raw, dtype=float32)`: reinterpret the bytes as float32
bit patterns; raises `ValueError` when the length is not a multiple of the
4-byte item size.  Empty input yields an empty array (as `np.frombuffer`
does; numpy versions that raise on an empty `fromstring` would differ only
in the degenerate `layer1_size = 0` case). -/
def npFromstringF32 (raw : List Byte) : Except PyErr (List Nat) :=
  match chunk4 raw with
  | some ws => .ok ws
  | none => .error (.valueError "string size must be a multiple of element size")

/-- `vectors[index, :] = arr` for a row of width `d`: an array of matching
length is stored as is; a length-1 array is broadcast across the row (numpy
shape-(1,) broadcasting); any other length raises `ValueError`. -/
def npSetRow (d : Nat) (arr : List Nat) : Except PyErr (List Nat) :=
  if arr.length = d then .ok arr
  else
    match arr with
    | [a] => .ok (List.replicate d a)
    | _ => .error (.valueError "could not broadcast input array")

/-! ## `_from_word2vec_binary` (embeddings.py lines 99-120) -/

/-- The per-record loop of `_from_word2vec_binary` (lines 107-119): for each
of the remaining `n` records, read a space-terminated token, ASCII-decode
it, read `4*d` payload bytes and store them as the next row.  On success the
rows collected are exactly the rows the Python code assigned into its
pre-allocated `np.zeros((vocab_size, layer1_size))` matrix, in order. -/
def readRecords (d : Nat) : Nat → List Byte → POut (List Str × List (List Nat))
  | 0, _ => .ok ([], [])
  | n + 1, input =>
    match readWord input with
    | none => .hang
    | some (wb, rest) =>
      match asciiDecode wb with
      | none => .err .unicodeDecodeError
      | some w =>
        match (npFromstringF32 (rest.take (4 * d))).bind (npSetRow d) with
        | .error e => .err e
        | .ok row =>
          match readRecords d n (rest.drop (4 * d)) with
          | .ok p => .ok (w :: p.1, row :: p.2)
          | .err e => .err e
          | .hang => .hang

/-- `Embedding._from_word2vec_binary` on a byte stream: read the header
line, parse the two sizes, then read `vocab_size` mixed text/binary
records. -/
def fromWord2vecBinary (input : List Byte) : POut (List Str × List (List Nat)) :=
  match asciiDecode (readLine input).1 with
  | none => .err .unicodeDecodeError
  | some hs =>
    match parseDims hs with
    | .error e => .err e
    | .ok (v, d) => readRecords d v (readLine input).2

/-! ## Float parsing (numpy `float32(str)`)

Values are modelled exactly as rationals: a decimal literal denotes its
exact rational value.  The claims proved below concern framing, field
counts, error paths and decimal round-trips, none of which depend on
IEEE-754 rounding.  The Python constructor additionally accepts
`inf`/`nan` spellings, which lie outside the rational value domain and are
not modelled. -/

/-- The optional fractional part after the integer digits: a point
followed by a digit run, otherwise nothing. -/
def fracPart (s2 : Str) : List Nat × Str :=
  match s2 with
  | '.' :: r => spanDigits r
  | _ => ([], s2)

/-- The exponent part of a float literal after the `e`/`E`: an optionally
signed digit run that must consume the rest of the field; multiplies or
divides the mantissa by the power of ten. -/
def floatExp (sm : Int) (f : Nat) (r : Str) : Option ℚ :=
  if (spanDigits (parseSignF r).2).1 = [] ∨ (spanDigits (parseSignF r).2).2 ≠ [] then none
  else
    some (if (parseSignF r).1 then
        mkRat sm (10 ^ f * 10 ^ natOfDigits (spanDigits (parseSignF r).2).1)
      else mkRat (sm * 10 ^ natOfDigits (spanDigits (parseSignF r).2).1) (10 ^ f))

/-- The tail of float parsing once sign, integer digits `ip`, fractional
digits `fp` and the remaining characters `s3` are known: at least one
mantissa digit, then nothing or an exponent. -/
def floatTail (neg : Bool) (ip fp : List Nat) (s3 : Str) : Option ℚ :=
  if ip = [] ∧ fp = [] then none
  else
    match s3 with
    | [] => some (mkRat (if neg then -(natOfDigits (ip ++ fp) : Int)
        else (natOfDigits (ip ++ fp) : Int)) (10 ^ fp.length))
    | 'e' :: r => floatExp (if neg then -(natOfDigits (ip ++ fp) : Int)
        else (natOfDigits (ip ++ fp) : Int)) fp.length r
    | 'E' :: r => floatExp (if neg then -(natOfDigits (ip ++ fp) : Int)
        else (natOfDigits (ip ++ fp) : Int)) fp.length r
    | _ => none

/-- Parse a (whitespace-free) Python float literal exactly:
`[sign] digits [. digits] [(e|E) [sign] digits]`, with at least one
mantissa digit.  The value `±(digits.digits) * 10^±exp` is produced with
`mkRat` from integer arithmetic only. -/
def floatOfChars (s : Str) : Option ℚ :=
  floatTail (parseSignF s).1 (spanDigits (parseSignF s).2).1
    (fracPart ((spanDigits (parseSignF s).2).2)).1
    (fracPart ((spanDigits (parseSignF s).2).2)).2

/-- `float32(field)`, raising `ValueError` as Python does. -/
def floatE (s : Str) : Except PyErr ℚ :=
  match floatOfChars s with
  | some q => .ok q
  | none => .error (.valueError ("could not convert string to float: " ++ String.mk s))

/-! ## `_from_word2vec_text` (embeddings.py lines 122-137) -/

/-- `vectors[lineNo, :] = weights` on the text path: the row width always
matches (the field count was checked), but `lineNo` beyond the allocated
`vocab_size` rows raises `IndexError`. -/
def npSetRowAt {α : Type} (mat : List (List α)) (i : Nat) (w : List α) :
    Except PyErr (List (List α)) :=
  if i < mat.length then .ok (mat.set i w) else .error .indexError

/-- The `for line_no, line in enumerate(fin)` loop of `_from_word2vec_text`
(lines 129-136).  Note it iterates over ALL remaining lines of the file,
not over `vocab_size` of them: the matrix was allocated with `vocab_size`
rows, so extra lines hit `IndexError`, and missing lines leave zero rows
behind. -/
def textRecords (d : Nat) : Nat → List Str → List Str → List (List ℚ) →
    Except PyErr (List Str × List (List ℚ))
  | _, [], words, mat => .ok (words, mat)
  | lineNo, line :: rest, words, mat =>
    match pySplit line with
    | [] => .error (.valueError ("invalid vector on line " ++ toString lineNo ++
        " (is this really the text format?)"))
    | w :: fields =>
      if fields.length ≠ d then
        .error (.valueError ("invalid vector on line " ++ toString lineNo ++
          " (is this really the text format?)"))
      else
        match fields.mapM floatE with
        | .error er => .error er
        | .ok weights =>
          match npSetRowAt mat lineNo weights with
          | .error er => .error er
          | .ok mat2 => textRecords d (lineNo + 1) rest (words ++ [w]) mat2

/-- `Embedding._from_word2vec_text` on a file given as its list of lines
(the header line first): parse the header sizes, allocate
`np.zeros((vocab_size, layer1_size))`, then run the line loop. -/
def fromWord2vecText (input : List Str) : Except PyErr (List Str × List (List ℚ)) :=
  match input with
  | [] => .error (.valueError "need more than 0 values to unpack")
  | h :: rest =>
    match parseDims h with
    | .error e => .error e
    | .ok (v, d) => textRecords d 0 rest [] (List.replicate v (List.replicate d (0 : ℚ)))

/-! ## Vocabulary and `Embedding` container (embeddings.py lines 27-77)

The vocabulary classes (`OrderedVocabulary`, `CountedVocabulary`) live in
`polyglot/mapping/base.py`, which is not part of the sources; they are
modelled from the spec's interface description. -/

/-- First index of `w` in a token list (the dense token→index mapping). -/
def vidx (w : Str) : List Str → Option Nat
  | [] => none
  | u :: us => if u = w then some 0 else (vidx w us).map (· + 1)

/-- Modelled from the spec: `OrderedVocabulary` (in `base.py`, not under the
sources) is an injective token→dense-index mapping in insertion order:
length, membership, lookup and iteration are those of its word list;
removing a token re-densifies the indices above it; `most_frequent k` keeps
the first `k` words (the list is ordered by frequency), clamping when `k`
exceeds the size. -/
structure OrderedVocabulary : Type where
  words : List Str
  deriving Repr, DecidableEq

/-- Modelled from the spec: the vocabulary's "keep top-k" operation —
take the first `k` words, preserving relative order, clamping at the
size. -/
def OrderedVocabulary.mostFrequent (v : OrderedVocabulary) (k : Nat) : OrderedVocabulary :=
  ⟨v.words.take k⟩

/-- Modelled from the spec: token removal with re-densified indices —
erase the token's slot. -/
def OrderedVocabulary.del (v : OrderedVocabulary) (w : Str) : OrderedVocabulary :=
  match vidx w v.words with
  | none => v
  | some i => ⟨v.words.eraseIdx i⟩

/-- The `Embedding` container: an owned vocabulary plus the dense matrix,
row `i` belonging to the token at index `i`.  The row type `α` is the
float32 representation (rationals on the text path, bit patterns on the
binary path); no operation of the container inspects it. -/
structure Embedding (α : Type) : Type where
  vocabulary : OrderedVocabulary
  vectors : List (List α)
  deriving Repr, DecidableEq

/-- `Embedding.__init__` (lines 30-36): store the pair, then raise
`ValueError` when the vocabulary size differs from the matrix row count. -/
def mkEmbedding {α : Type} (voc : OrderedVocabulary) (vectors : List (List α)) :
    Except PyErr (Embedding α) :=
  if voc.words.length = vectors.length then .ok ⟨voc, vectors⟩
  else
    .error (.valueError ("Vocabulary has " ++ toString voc.words.length ++
      " items but we have " ++ toString vectors.length ++ " vectors"))

/-- `Embedding.__getitem__` (lines 38-39): `self.vectors[self.vocabulary[k]]`,
with the vocabulary raising `KeyError` on an absent token and the row access
raising `IndexError` out of range. -/
def Embedding.getE {α : Type} (e : Embedding α) (w : Str) : Except PyErr (List α) :=
  match vidx w e.vocabulary.words with
  | none => .error .keyError
  | some i =>
    match e.vectors.get? i with
    | none => .error .indexError
    | some r => .ok r

/-- Lookup as an `Option` (the successfully returned vector, if any). -/
def Embedding.get {α : Type} (e : Embedding α) (w : Str) : Option (List α) :=
  (e.getE w).toOption

/-- `len(embedding)` = `len(self.vocabulary)` (lines 54-55). -/
def Embedding.len {α : Type} (e : Embedding α) : Nat := e.vocabulary.words.length

/-- `embedding.shape` (lines 65-67): numpy shape of the row matrix. -/
def Embedding.shape {α : Type} (e : Embedding α) : Nat × Nat :=
  (e.vectors.length, (e.vectors.headD []).length)

/-- `np.delete(mat, i, 0)`: remove row `i`; numpy raises `IndexError` when
`i` is out of bounds. -/
def npDelete {α : Type} (mat : List (List α)) (i : Nat) : Except PyErr (List (List α)) :=
  if i < mat.length then .ok (mat.eraseIdx i) else .error .indexError

/-- `Embedding.__delitem__` (lines 44-52): look the token's index up, remove
the token from the vocabulary, then delete the matrix row at that index. -/
def Embedding.delitem {α : Type} (e : Embedding α) (w : Str) : Except PyErr (Embedding α) :=
  match vidx w e.vocabulary.words with
  | none => .error .keyError
  | some i =>
    match npDelete e.vectors i with
    | .error er => .error er
    | .ok m => .ok ⟨e.vocabulary.del w, m⟩

/-- `Embedding.most_frequent(k, inplace)` (lines 69-77): ask the vocabulary
for its top-`k` sub-vocabulary, regather the rows `[self[w] for w in
vocabulary]`, then either overwrite `self`'s fields (no constructor check)
or build a fresh `Embedding` (checked).  Returned pair: (`self` after the
call, the returned instance). -/
def Embedding.mostFrequent {α : Type} (e : Embedding α) (k : Nat) (inplace : Bool) :
    Except PyErr (Embedding α × Embedding α) :=
  match (e.vocabulary.mostFrequent k).words.mapM e.getE with
  | .error er => .error er
  | .ok rows =>
    if inplace then
      .ok (⟨e.vocabulary.mostFrequent k, rows⟩, ⟨e.vocabulary.mostFrequent k, rows⟩)
    else
      match mkEmbedding (e.vocabulary.mostFrequent k) rows with
      | .error er => .error er
      | .ok e2 => .ok (e, e2)

/-- The size invariant of the data model: row count equals vocabulary
size. -/
def einv {α : Type} (e : Embedding α) : Prop :=
  e.vectors.length = e.vocabulary.words.length

instance {α : Type} (e : Embedding α) : Decidable (einv e) := by
  unfold einv; infer_instance

/-- `Embedding.from_word2vec(fname, fvocab=None, binary=False)` restricted
to the text path (lines 160-166): run the text reader, wrap the parsed
token list in an order-preserving vocabulary, and construct the checked
`Embedding`. -/
def fromWord2vecTextEmb (input : List Str) : Except PyErr (Embedding ℚ) :=
  match fromWord2vecText input with
  | .error e => .error e
  | .ok (ws, m) => mkEmbedding ⟨ws⟩ m

/-! ## `Embedding.from_gensim` (embeddings.py lines 79-88) -/

/-- One entry of a gensim model's vocabulary. -/
structure GensimVocabEntry : Type where
  count : Int
  index : Nat
  deriving Repr, DecidableEq

/-- A third-party in-memory model: token→entry mapping plus the weight
matrix `syn0`. -/
structure GensimModel : Type where
  vocab : List (Str × GensimVocabEntry)
  syn0 : List (List ℚ)
  deriving Repr, DecidableEq

/-- Modelled from the spec: `CountedVocabulary` (in `base.py`, not under
the sources) carries per-token frequency counts. -/
structure CountedVocabulary : Type where
  wordCount : List (Str × Int)
  deriving Repr, DecidableEq

/-- The local names `from_gensim` has bound when the loop body runs: the
function initialized `word_counts = {}` (line 81) and `vectors = []`
(line 82); the name `word_count` is never assigned before being read. -/
def gensimLocals : List String := ["model", "word_counts", "vectors"]

/-- One iteration of the `from_gensim` loop (lines 83-85):
`vectors.append(model.syn0[vocab.index])` (raising `IndexError` out of
range), then the assignment `word_count[word] = vocab.count`, whose
subscripted target evaluates the name `word_count` — unbound, so Python
raises `NameError` here. -/
def gensimStep (syn0 : List (List ℚ)) (acc : List (List ℚ)) (entry : Str × GensimVocabEntry) :
    Except PyErr (List (List ℚ)) := do
  let row ← match syn0.get? entry.2.index with
    | some r => Except.ok r
    | none => Except.error PyErr.indexError
  if "word_count" ∈ gensimLocals then .ok (acc ++ [row])
  else .error (.nameError "word_count")

/-- `Embedding.from_gensim(model)` (lines 79-88): iterate the vocabulary
sorted by descending count (Python's stable `sorted` with key
`-item[1].count`; the tie order is irrelevant here because the first
iteration already raises), then `CountedVocabulary(word_count=word_count)`
(line 86), which reads the never-bound name `word_count` again.  The
success branch is unreachable: Python could only take it if `word_count`
were bound, and it never is. -/
def fromGensim (model : GensimModel) : Except PyErr (Embedding ℚ) := do
  let sorted := model.vocab.insertionSort (fun a b => b.2.count ≤ a.2.count)
  let vectors ← sorted.foldlM (gensimStep model.syn0) []
  if "word_count" ∈ gensimLocals then
    mkEmbedding ⟨sorted.map (·.1)⟩ vectors
  else .error (.nameError "word_count")

/-! ## Resource handling of the loaders (embeddings.py lines 21-24, 93,
101, 124)

`_open` returns a freshly opened file when given a (unicode) path and the
argument itself when given an already-open file object.  Each reader wraps
its body in `with _open(...) as fin:`; Python's `with` statement on a file
object calls `fin.__exit__` on every exit path (normal return or
exception), which closes `fin` — whether or not `_open` created it.  The
model records which handles a reader call opens and closes; the body's
result is irrelevant because the close happens unconditionally. -/

/-- The input argument of a loader: a path to open, or an already-open
file handle owned by the caller. -/
inductive PySource : Type where
  | path (p : String)
  | handle (h : Nat)
  deriving Repr, DecidableEq

/-- `_open(file_)` (lines 21-24): a path is opened into a fresh handle
(`fresh`), anything else is returned unchanged.  Returns the file object
bound to `fin` and whether `_open` opened it. -/
def pyOpen (src : PySource) (fresh : Nat) : Nat × Bool :=
  match src with
  | .path _ => (fresh, true)
  | .handle h => (h, false)

/-- Handles opened and closed by one loader call. -/
structure OpenClose : Type where
  openedByLoader : List Nat
  closedByLoader : List Nat
  deriving Repr, DecidableEq

/-- The `with _open(...) as fin:` pattern shared by the three readers: the
handle `fin` is closed on every exit path. -/
def readerTrace (src : PySource) (fresh : Nat) : OpenClose :=
  let p := pyOpen src fresh
  { openedByLoader := if p.2 then [p.1] else [], closedByLoader := [p.1] }

/-- Resource behaviour of `_from_word2vec_binary` (line 101). -/
def binaryReaderTrace (src : PySource) (fresh : Nat) : OpenClose := readerTrace src fresh

/-- Resource behaviour of `_from_word2vec_text` (line 124). -/
def textReaderTrace (src : PySource) (fresh : Nat) : OpenClose := readerTrace src fresh

/-- Resource behaviour of `_from_word2vec_vocab` (line 93). -/
def vocabReaderTrace (src : PySource) (fresh : Nat) : OpenClose := readerTrace src fresh

/-- Resource behaviour of `Embedding.from_word2vec(fname, fvocab, binary)`
(lines 139-166): optionally read the vocabulary-count file, then read
`fname` with the binary or text reader. -/
def fromWord2vecTrace (fname : PySource) (fvocab : Option PySource) (binary : Bool)
    (freshV freshF : Nat) : OpenClose :=
  let tv : OpenClose :=
    match fvocab with
    | some v => vocabReaderTrace v freshV
    | none => ⟨[], []⟩
  let tf : OpenClose :=
    if binary then binaryReaderTrace fname freshF else textReaderTrace fname freshF
  ⟨tv.openedByLoader ++ tf.openedByLoader, tv.closedByLoader ++ tf.closedByLoader⟩

/-! ## Word2vec text writer (modelled from the spec)

The repository has no writer; the spec's round-trip property (§8) speaks of
"writing a matrix and token list in word2vec text format".  The writer
below is modelled from the spec's description of that format (§6): a
two-integer header line, then one line per token holding the token and its
`layer1_size` decimal float fields, space-separated.  Matrix entries are
decimal fixed-point values `m / 10^f` (the decimal literals float32 values
are written as), printed exactly. -/

/-- The ASCII character of a decimal digit value. -/
def digitChar (d : Nat) : Char :=
  match d with
  | 0 => '0' | 1 => '1' | 2 => '2' | 3 => '3' | 4 => '4'
  | 5 => '5' | 6 => '6' | 7 => '7' | 8 => '8' | 9 => '9'
  | _ => '*'

/-- Little-endian decimal digits of `n` (empty for 0); `fuel ≥ n` makes the
recursion structural. -/
def natDigitsAux : Nat → Nat → List Nat
  | 0, _ => []
  | fuel + 1, n => if n = 0 then [] else n % 10 :: natDigitsAux fuel (n / 10)

/-- Little-endian digit evaluation (the inverse of `natDigitsAux`). -/
def ofDigitsLE : List Nat → Nat
  | [] => 0
  | d :: ds => d + 10 * ofDigitsLE ds

/-- Decimal numeral of `n`. -/
def printNat (n : Nat) : Str :=
  if n = 0 then ['0'] else ((natDigitsAux n n).reverse.map digitChar)

/-- Left-pad a numeral with zeros to length at least `k`. -/
def padZeros (k : Nat) (s : Str) : Str := List.replicate (k - s.length) '0' ++ s

/-- A decimal fixed-point value `m / 10^f`: the exact value of the decimal
literal a float32 entry is written as. -/
structure Dec : Type where
  m : Int
  f : Nat
  deriving Repr, DecidableEq

/-- The rational value of a decimal fixed-point entry. -/
def Dec.val (x : Dec) : ℚ := mkRat x.m (10 ^ x.f)

/-- Print `m / 10^f` as a decimal literal: sign, integer digits, and for
`f > 0` a point followed by exactly `f` fractional digits. -/
def printDec (x : Dec) : Str :=
  let ds := padZeros (x.f + 1) (printNat x.m.natAbs)
  let ip := ds.take (ds.length - x.f)
  let fp := ds.drop (ds.length - x.f)
  (if x.m < 0 then ['-'] else []) ++ (if x.f = 0 then ip else ip ++ '.' :: fp)

/-- Join words with single spaces. -/
def joinSp : List Str → Str
  | [] => []
  | [w] => w
  | w :: ws => w ++ ' ' :: joinSp ws

/-- Modelled from the spec: write a token list and matrix in word2vec text
format — header `"<vocab_size> <layer1_size>"`, then one line per token of
the token followed by its decimal float fields. -/
def writeWord2vecText (tokens : List Str) (rows : List (List Dec)) (d : Nat) : List Str :=
  (printNat tokens.length ++ ' ' :: printNat d) ::
    List.zipWith (fun t r => t ++ ' ' :: joinSp (r.map printDec)) tokens rows

/-! ## Predicates used by the claim statements -/

/-- A well-formed binary record for width `d`: the token bytes are
ASCII-decodable and contain neither the terminating space nor a newline,
and the payload is exactly `4*d` bytes. -/
def recordWF (d : Nat) (r : List Byte × List Byte) : Prop :=
  (∀ b ∈ r.1, b < 128 ∧ b ≠ 32 ∧ b ≠ 10) ∧ r.2.length = 4 * d

instance (d : Nat) (r : List Byte × List Byte) : Decidable (recordWF d r) := by
  unfold recordWF; infer_instance

/-- The byte serialization of a binary record: token, terminating space,
payload. -/
def recBytes (r : List Byte × List Byte) : List Byte := r.1 ++ 32 :: r.2

/-- A text data line `line` carrying the record `r = (token, floats)` for
width `d`: it splits into the token followed by exactly `d` fields, each
parsing as a float to the corresponding value. -/
def lineRec (d : Nat) (line : Str) (r : Str × List ℚ) : Prop :=
  ∃ fs : List Str, pySplit line = r.1 :: fs ∧ fs.length = d ∧
    List.Forall₂ (fun f q => floatOfChars f = some q) fs r.2

/-- A token a text-format writer may emit: non-empty and free of the
whitespace that would break the line fields apart. -/
def tokenWF (t : Str) : Prop := t ≠ [] ∧ ∀ c ∈ t, isPySpace c = false

instance (t : Str) : Decidable (tokenWF t) := by
  unfold tokenWF; infer_instance

/-! ## Helper lemmas -/

theorem mapM_ok_of_forall {β γ : Type} (f : β → Except PyErr γ) (g : β → γ) :
    ∀ l : List β, (∀ x ∈ l, f x = .ok (g x)) → l.mapM f = .ok (l.map g)
  | [], _ => rfl
  | x :: xs, h => by
    have hx := h x (List.mem_cons_self x xs)
    have ih := mapM_ok_of_forall f g xs (fun y hy => h y (List.mem_cons_of_mem x hy))
    simp only [List.mapM_cons, hx, ih, List.map_cons]
    rfl

theorem mapM_ok_of_forall₂ {β γ : Type} (f : β → Except PyErr γ) :
    ∀ {l : List β} {l' : List γ}, List.Forall₂ (fun a b => f a = .ok b) l l' →
      l.mapM f = .ok l'
  | [], [], .nil => rfl
  | x :: xs, y :: ys, .cons hx hrest => by
    have ih := mapM_ok_of_forall₂ f hrest
    simp only [List.mapM_cons, hx, ih]
    rfl

theorem vidx_cons_self (w : Str) (us : List Str) : vidx w (w :: us) = some 0 := by
  simp [vidx]

theorem vidx_cons_ne {u w : Str} (hu : u ≠ w) (us : List Str) :
    vidx w (u :: us) = (vidx w us).map (· + 1) := by
  simp [vidx, hu]

theorem vidx_eq_none_iff (w : Str) : ∀ l : List Str, vidx w l = none ↔ w ∉ l
  | [] => by simp [vidx]
  | u :: us => by
    by_cases hu : u = w
    · subst hu; simp [vidx_cons_self]
    · rw [vidx_cons_ne hu us]
      simp only [Option.map_eq_none', vidx_eq_none_iff w us, List.mem_cons]
      constructor
      · rintro h (h1 | h2)
        · exact hu h1.symm
        · exact h h2
      · intro h hm
        exact h (Or.inr hm)

theorem vidx_some_of_mem {w : Str} {l : List Str} (h : w ∈ l) : ∃ i, vidx w l = some i := by
  cases hv : vidx w l with
  | none => exact absurd h ((vidx_eq_none_iff w l).1 hv)
  | some i => exact ⟨i, rfl⟩

theorem vidx_get? {w : Str} : ∀ {l : List Str} {i : Nat}, vidx w l = some i →
    l.get? i = some w
  | [], i, h => by simp [vidx] at h
  | u :: us, i, h => by
    by_cases hu : u = w
    · subst hu
      rw [vidx_cons_self] at h
      cases h
      rfl
    · rw [vidx_cons_ne hu us] at h
      rw [Option.map_eq_some'] at h
      obtain ⟨j, hj, hji⟩ := h
      subst hji
      simpa using vidx_get? hj

theorem vidx_lt {w : Str} {l : List Str} {i : Nat} (h : vidx w l = some i) :
    i < l.length :=
  (List.get?_eq_some.1 (vidx_get? h)).1

theorem mem_of_vidx {w : Str} {l : List Str} {i : Nat} (h : vidx w l = some i) : w ∈ l :=
  List.get?_mem (vidx_get? h)

theorem getE_none_of_vidx {α : Type} (e : Embedding α) {u : Str}
    (h : vidx u e.vocabulary.words = none) : e.getE u = .error .keyError := by
  unfold Embedding.getE
  rw [h]

theorem getE_eq_of_vidx {α : Type} (e : Embedding α) {u : Str} {i : Nat}
    (h : vidx u e.vocabulary.words = some i) :
    e.getE u = (match e.vectors.get? i with
      | none => .error .indexError
      | some r => .ok r) := by
  unfold Embedding.getE
  rw [h]

theorem get_eq_bind {α : Type} (e : Embedding α) (u : Str) :
    e.get u = (vidx u e.vocabulary.words).bind (fun i => e.vectors.get? i) := by
  unfold Embedding.get
  cases hv : vidx u e.vocabulary.words with
  | none => rw [getE_none_of_vidx e hv]; rfl
  | some i =>
    rw [getE_eq_of_vidx e hv]
    show (match e.vectors.get? i with
      | none => Except.error PyErr.indexError
      | some r => Except.ok r).toOption = e.vectors.get? i
    cases e.vectors.get? i with
    | none => rfl
    | some r => rfl

theorem getE_ok_of_mem {α : Type} (e : Embedding α) (hin : einv e) {u : Str}
    (hu : u ∈ e.vocabulary.words) :
    e.getE u = .ok ((e.get u).getD []) ∧ (e.get u).isSome := by
  obtain ⟨i, hi⟩ := vidx_some_of_mem hu
  have hlt : i < e.vectors.length := hin ▸ vidx_lt hi
  have hget : e.vectors.get? i = some (e.vectors.get ⟨i, hlt⟩) := List.get?_eq_get hlt
  have hE : e.getE u = .ok (e.vectors.get ⟨i, hlt⟩) := by
    rw [getE_eq_of_vidx e hi, hget]
  have hO : e.get u = some (e.vectors.get ⟨i, hlt⟩) := by
    unfold Embedding.get
    rw [hE]
    rfl
  rw [hE, hO]
  exact ⟨rfl, rfl⟩

theorem map_succ_bind {β : Type} (x : Option Nat) (r : β) (t : List β) :
    (x.map (· + 1)).bind (fun j => (r :: t).get? j) = x.bind (fun j => t.get? j) := by
  cases x <;> rfl

theorem vidx_bind_eraseIdx {α : Type} {w u : Str} (hne : u ≠ w) :
    ∀ (l : List Str) (m : List (List α)) (i : Nat), vidx w l = some i →
      (vidx u (l.eraseIdx i)).bind (fun j => (m.eraseIdx i).get? j) =
        (vidx u l).bind (fun j => m.get? j)
  | [], _, _, h => by simp [vidx] at h
  | v :: vs, m, i, h => by
    by_cases hv : v = w
    · subst hv
      rw [vidx_cons_self] at h
      cases h
      rw [List.eraseIdx_cons_zero, vidx_cons_ne (fun hh => hne hh.symm) vs]
      cases m with
      | nil =>
        cases hvu : vidx u vs <;> rfl
      | cons r m' =>
        rw [List.eraseIdx_cons_zero, map_succ_bind]
    · rw [vidx_cons_ne hv vs] at h
      rw [Option.map_eq_some'] at h
      obtain ⟨i', hi', rfl⟩ := h
      rw [List.eraseIdx_cons_succ]
      by_cases hu : v = u
      · subst hu
        rw [vidx_cons_self, vidx_cons_self]
        cases m with
        | nil => rfl
        | cons r m' =>
          rw [List.eraseIdx_cons_succ]
          rfl
      · rw [vidx_cons_ne hu, vidx_cons_ne hu]
        cases m with
        | nil =>
          rw [List.eraseIdx_nil]
          cases hx : vidx u (vs.eraseIdx i') <;> cases hy : vidx u vs <;> rfl
        | cons r m' =>
          rw [List.eraseIdx_cons_succ, map_succ_bind, map_succ_bind]
          exact vidx_bind_eraseIdx hne vs m' i' hi'

theorem not_mem_eraseIdx_of_nodup {w : Str} :
    ∀ {l : List Str} {i : Nat}, l.Nodup → vidx w l = some i → w ∉ l.eraseIdx i
  | [], _, _, h => by simp [vidx] at h
  | v :: vs, i, hnd, h => by
    rw [List.nodup_cons] at hnd
    by_cases hv : v = w
    · subst hv
      rw [vidx_cons_self] at h
      cases h
      rw [List.eraseIdx_cons_zero]
      exact hnd.1
    · rw [vidx_cons_ne hv vs] at h
      rw [Option.map_eq_some'] at h
      obtain ⟨i', hi', rfl⟩ := h
      rw [List.eraseIdx_cons_succ]
      intro hmem
      rcases List.mem_cons.1 hmem with h1 | h2
      · exact hv h1.symm
      · exact not_mem_eraseIdx_of_nodup hnd.2 hi' h2

theorem vidx_eraseIdx_shift {u w : Str} (hne : u ≠ w) :
    ∀ (l : List Str) (i j : Nat), vidx w l = some i → vidx u l = some j →
      vidx u (l.eraseIdx i) = some (if j < i then j else j - 1)
  | [], _, _, h, _ => by simp [vidx] at h
  | v :: vs, i, j, hw, hu => by
    by_cases hv : v = w
    · subst hv
      rw [vidx_cons_self] at hw
      cases hw
      rw [vidx_cons_ne (fun hh => hne hh.symm) vs] at hu
      rw [Option.map_eq_some'] at hu
      obtain ⟨j', hj', rfl⟩ := hu
      rw [List.eraseIdx_cons_zero, hj', if_neg (Nat.not_lt_zero _)]
      exact congrArg some (by omega)
    · rw [vidx_cons_ne hv vs] at hw
      rw [Option.map_eq_some'] at hw
      obtain ⟨i', hi', rfl⟩ := hw
      rw [List.eraseIdx_cons_succ]
      by_cases hvu : v = u
      · subst hvu
        rw [vidx_cons_self] at hu
        cases hu
        rw [vidx_cons_self, if_pos (Nat.succ_pos i')]
      · rw [vidx_cons_ne hvu] at hu
        rw [Option.map_eq_some'] at hu
        obtain ⟨j', hj', rfl⟩ := hu
        have hij : j' ≠ i' := by
          intro hh
          subst hh
          have h1 := vidx_get? hi'
          have h2 := vidx_get? hj'
          rw [h1] at h2
          cases h2
          exact hne rfl
        rw [vidx_cons_ne hvu, vidx_eraseIdx_shift hne vs i' j' hi' hj']
        simp only [Option.map_some']
        by_cases hlt : j' < i'
        · rw [if_pos hlt, if_pos (by omega)]
        · rw [if_neg hlt, if_neg (by omega)]
          congr 1
          omega

/-! ## C7: construction validates sizes -/

/-- C7: for every (vocabulary, vectors) pair, `Embedding` construction
succeeds iff the vocabulary size equals the matrix row count (and then the
constructed instance is exactly that pair, with `len()` equal to both);
on a mismatch it raises the dimension-mismatch `ValueError`. -/
theorem c7_construction {α : Type} (voc : OrderedVocabulary) (m : List (List α)) :
    (∀ e : Embedding α, mkEmbedding voc m = .ok e ↔
      (voc.words.length = m.length ∧ e = ⟨voc, m⟩)) ∧
    (∀ e : Embedding α, mkEmbedding voc m = .ok e →
      e.len = voc.words.length ∧ e.len = e.vectors.length) ∧
    (voc.words.length ≠ m.length →
      mkEmbedding voc m = .error (.valueError ("Vocabulary has " ++
        toString voc.words.length ++ " items but we have " ++
        toString m.length ++ " vectors"))) := by
  unfold mkEmbedding
  by_cases h : voc.words.length = m.length
  · refine ⟨?_, ?_, fun hne => absurd h hne⟩
    · intro e
      rw [if_pos h]
      constructor
      · intro he
        cases he
        exact ⟨h, rfl⟩
      · intro he
        rw [he.2]
    · intro e he
      rw [if_pos h] at he
      cases he
      exact ⟨rfl, h⟩
  · refine ⟨?_, ?_, fun _ => by rw [if_neg h]⟩
    · intro e
      rw [if_neg h]
      constructor
      · intro he; exact Except.noConfusion he
      · intro he; exact absurd he.1 h
    · intro e he
      rw [if_neg h] at he
      exact Except.noConfusion he

/-- Witness for C7 at concrete inputs: a matching pair constructs, a
mismatched pair raises the dimension-mismatch error. -/
theorem c7_construction_witness :
    mkEmbedding (α := ℚ) ⟨[['a'], ['b']]⟩ [[1], [2]] = .ok ⟨⟨[['a'], ['b']]⟩, [[1], [2]]⟩ ∧
    mkEmbedding (α := ℚ) ⟨[['a']]⟩ [[1], [2]] =
      .error (.valueError "Vocabulary has 1 items but we have 2 vectors") := by
  constructor
  · exact ((c7_construction ⟨[['a'], ['b']]⟩ [[1], [2]]).1 _).2 ⟨by decide, rfl⟩
  · have h := (c7_construction (α := ℚ) ⟨[['a']]⟩ [[1], [2]]).2.2 (by decide)
    simpa using h

theorem del_eq_of_vidx {w : Str} {i : Nat} (v : OrderedVocabulary)
    (h : vidx w v.words = some i) : v.del w = ⟨v.words.eraseIdx i⟩ := by
  unfold OrderedVocabulary.del
  rw [h]

theorem delitem_eq_of_vidx {α : Type} (e : Embedding α) {w : Str} {i : Nat}
    (h : vidx w e.vocabulary.words = some i) :
    e.delitem w = (match npDelete e.vectors i with
      | .error er => .error er
      | .ok m => .ok ⟨e.vocabulary.del w, m⟩) := by
  unfold Embedding.delitem
  rw [h]

/-! ## C4: deletion -/

/-- C4: for every `Embedding` (with the vocabulary's unique-token invariant
and the size invariant) and every present token, `__delitem__` succeeds,
reduces `len()` by exactly one, removes the token from membership, leaves
every other token's vector retrievable and unchanged via `get`, and shifts
the indices above the removed one down by one. -/
theorem c4_delitem {α : Type} (e : Embedding α) (w : Str)
    (hnd : e.vocabulary.words.Nodup) (hin : einv e) (hw : w ∈ e.vocabulary.words) :
    ∃ (e2 : Embedding α) (i : Nat),
      vidx w e.vocabulary.words = some i ∧
      e.delitem w = .ok e2 ∧
      e2.len = e.len - 1 ∧
      w ∉ e2.vocabulary.words ∧
      (∀ u, u ∈ e.vocabulary.words → u ≠ w → e2.get u = e.get u) ∧
      (∀ u j, u ≠ w → vidx u e.vocabulary.words = some j →
        vidx u e2.vocabulary.words = some (if j < i then j else j - 1)) := by
  obtain ⟨i, hi⟩ := vidx_some_of_mem hw
  have hlti : i < e.vocabulary.words.length := vidx_lt hi
  have hltv : i < e.vectors.length := by rw [hin]; exact hlti
  refine ⟨⟨⟨e.vocabulary.words.eraseIdx i⟩, e.vectors.eraseIdx i⟩, i, hi, ?_, ?_, ?_, ?_, ?_⟩
  · rw [delitem_eq_of_vidx e hi, del_eq_of_vidx e.vocabulary hi]
    unfold npDelete
    rw [if_pos hltv]
  · exact List.length_eraseIdx_of_lt hlti
  · exact not_mem_eraseIdx_of_nodup hnd hi
  · intro u hu hne
    rw [get_eq_bind, get_eq_bind]
    exact vidx_bind_eraseIdx hne e.vocabulary.words e.vectors i hi
  · intro u j hne hj
    exact vidx_eraseIdx_shift hne e.vocabulary.words i j hi hj

/-- Witness for C4 at a concrete three-token embedding, deleting `"b"`. -/
theorem c4_delitem_witness :
    ∃ (e2 : Embedding ℚ) (i : Nat),
      vidx ['b'] [['a'], ['b'], ['c']] = some i ∧
      Embedding.delitem ⟨⟨[['a'], ['b'], ['c']]⟩, [[1], [2], [3]]⟩ ['b'] = .ok e2 ∧
      e2.len = 3 - 1 ∧
      ['b'] ∉ e2.vocabulary.words ∧
      (∀ u, u ∈ [['a'], ['b'], ['c']] → u ≠ ['b'] →
        e2.get u = Embedding.get ⟨⟨[['a'], ['b'], ['c']]⟩, [[1], [2], [3]]⟩ u) ∧
      (∀ u j, u ≠ ['b'] → vidx u [['a'], ['b'], ['c']] = some j →
        vidx u e2.vocabulary.words = some (if j < i then j else j - 1)) :=
  c4_delitem ⟨⟨[['a'], ['b'], ['c']]⟩, [[1], [2], [3]]⟩ ['b']
    (by decide) (by decide) (by decide)

theorem mostFrequent_eq {α : Type} (e : Embedding α) (k : Nat) (ip : Bool)
    (rows : List (List α))
    (hmap : (e.vocabulary.mostFrequent k).words.mapM e.getE = .ok rows) :
    e.mostFrequent k ip =
      (if ip then
        .ok (⟨e.vocabulary.mostFrequent k, rows⟩, ⟨e.vocabulary.mostFrequent k, rows⟩)
      else
        match mkEmbedding (e.vocabulary.mostFrequent k) rows with
        | .error er => .error er
        | .ok e2 => .ok (e, e2)) := by
  unfold Embedding.mostFrequent
  rw [hmap]

/-! ## C5: size invariant preserved -/

/-- C5: the invariant "row count equals vocabulary size" holds for every
`Embedding` produced by the checked constructor and is preserved by every
returning public operation: deletion, and `most_frequent` in both the
in-place and the fresh-copy mode (for the latter, both the untouched
original and the returned instance satisfy it). -/
theorem c5_invariant_preservation {α : Type} :
    (∀ (voc : OrderedVocabulary) (m : List (List α)) (e : Embedding α),
      mkEmbedding voc m = .ok e → einv e) ∧
    (∀ (e e2 : Embedding α) (w : Str), einv e → e.delitem w = .ok e2 → einv e2) ∧
    (∀ (e : Embedding α) (k : Nat) (ip : Bool) (p : Embedding α × Embedding α),
      einv e → e.mostFrequent k ip = .ok p → einv p.1 ∧ einv p.2) := by
  refine ⟨?_, ?_, ?_⟩
  · intro voc m e h
    unfold mkEmbedding at h
    split at h
    · cases h
      unfold einv
      exact Eq.symm (by assumption)
    · exact Except.noConfusion h
  · intro e e2 w hin h
    cases hv : vidx w e.vocabulary.words with
    | none =>
      unfold Embedding.delitem at h
      rw [hv] at h
      exact Except.noConfusion h
    | some i =>
      rw [delitem_eq_of_vidx e hv, del_eq_of_vidx e.vocabulary hv] at h
      unfold npDelete at h
      by_cases hlt : i < e.vectors.length
      · rw [if_pos hlt] at h
        cases h
        unfold einv
        have h1 := List.length_eraseIdx_of_lt hlt
        have h2 := List.length_eraseIdx_of_lt (l := e.vocabulary.words) (by rw [← hin]; exact hlt)
        rw [h1, h2, hin]
      · rw [if_neg hlt] at h
        exact Except.noConfusion h
  · intro e k ip p hin h
    have hmap : (e.vocabulary.mostFrequent k).words.mapM e.getE =
        .ok ((e.vocabulary.mostFrequent k).words.map (fun u => (e.get u).getD [])) := by
      apply mapM_ok_of_forall
      intro u hu
      exact (getE_ok_of_mem e hin (List.take_subset k e.vocabulary.words hu)).1
    rw [mostFrequent_eq e k ip _ hmap] at h
    have hlen : ((e.vocabulary.mostFrequent k).words.map (fun u => (e.get u).getD [])).length =
        (e.vocabulary.mostFrequent k).words.length := List.length_map _ _
    cases ip with
    | true =>
      rw [if_pos rfl] at h
      cases h
      exact ⟨hlen, hlen⟩
    | false =>
      rw [if_neg Bool.false_ne_true] at h
      have hmk : mkEmbedding (e.vocabulary.mostFrequent k)
          ((e.vocabulary.mostFrequent k).words.map (fun u => (e.get u).getD [])) =
          .ok ⟨e.vocabulary.mostFrequent k,
            (e.vocabulary.mostFrequent k).words.map (fun u => (e.get u).getD [])⟩ := by
        unfold mkEmbedding
        rw [if_pos hlen.symm]
      rw [hmk] at h
      have h2 : Except.ok (ε := PyErr) (e, (⟨e.vocabulary.mostFrequent k,
          (e.vocabulary.mostFrequent k).words.map (fun u => (e.get u).getD [])⟩ :
            Embedding α)) = .ok p := h
      cases h2
      exact ⟨hin, hlen⟩

/-- Witness for C5: the three preservation statements applied at concrete
embeddings. -/
theorem c5_invariant_preservation_witness :
    einv (⟨⟨[['a'], ['b']]⟩, [[1], [2]]⟩ : Embedding ℚ) ∧
    einv (⟨⟨[['a']]⟩, [[1]]⟩ : Embedding ℚ) ∧
    einv (⟨⟨[['a']]⟩, [[1]]⟩ : Embedding ℚ) := by
  refine ⟨?_, ?_, ?_⟩
  · exact (c5_invariant_preservation (α := ℚ)).1 ⟨[['a'], ['b']]⟩ [[1], [2]] _ (by decide)
  · exact (c5_invariant_preservation (α := ℚ)).2.1 ⟨⟨[['a'], ['b']]⟩, [[1], [2]]⟩ _ ['b']
      (by decide) (by decide)
  · exact ((c5_invariant_preservation (α := ℚ)).2.2 ⟨⟨[['a'], ['b']]⟩, [[1], [2]]⟩ 1 false
      (⟨⟨[['a'], ['b']]⟩, [[1], [2]]⟩, ⟨⟨[['a']]⟩, [[1]]⟩) (by decide) (by decide)).2

/-! ## C6: `most_frequent` with `inplace=False` leaves the original
untouched -/

/-- C6: for every `Embedding` (satisfying the size invariant) and every
`k`, `most_frequent(k, inplace=False)` returns the pair (unchanged
original, fresh instance): the first component is `self` exactly,
and the returned instance has `len() = min k (original len)`, its tokens
are a subset of the original's, and each kept token's vector equals its
vector in the original. -/
theorem c6_most_frequent_frame {α : Type} (e : Embedding α) (k : Nat) (hin : einv e) :
    ∃ ret : Embedding α,
      e.mostFrequent k false = .ok (e, ret) ∧
      ret.len = min k e.len ∧
      (∀ u ∈ ret.vocabulary.words, u ∈ e.vocabulary.words) ∧
      (∀ u ∈ ret.vocabulary.words, ret.get u = e.get u) := by
  have hmap : (e.vocabulary.mostFrequent k).words.mapM e.getE =
      .ok ((e.vocabulary.mostFrequent k).words.map (fun u => (e.get u).getD [])) := by
    apply mapM_ok_of_forall
    intro u hu
    exact (getE_ok_of_mem e hin (List.take_subset k e.vocabulary.words hu)).1
  have hlen : ((e.vocabulary.mostFrequent k).words.map (fun u => (e.get u).getD [])).length =
      (e.vocabulary.mostFrequent k).words.length := List.length_map _ _
  refine ⟨⟨e.vocabulary.mostFrequent k,
    (e.vocabulary.mostFrequent k).words.map (fun u => (e.get u).getD [])⟩, ?_, ?_, ?_, ?_⟩
  · rw [mostFrequent_eq e k false _ hmap, if_neg Bool.false_ne_true]
    have hmk : mkEmbedding (e.vocabulary.mostFrequent k)
        ((e.vocabulary.mostFrequent k).words.map (fun u => (e.get u).getD [])) =
        .ok ⟨e.vocabulary.mostFrequent k,
          (e.vocabulary.mostFrequent k).words.map (fun u => (e.get u).getD [])⟩ := by
      unfold mkEmbedding
      rw [if_pos hlen.symm]
    rw [hmk]
  · show (e.vocabulary.words.take k).length = min k e.vocabulary.words.length
    exact List.length_take k e.vocabulary.words
  · intro u hu
    exact List.take_subset k e.vocabulary.words hu
  · intro u hu
    have humem : u ∈ e.vocabulary.words := List.take_subset k e.vocabulary.words hu
    obtain ⟨j, hj⟩ := vidx_some_of_mem hu
    have hsome := (getE_ok_of_mem e hin humem).2
    rw [get_eq_bind, hj]
    show ((e.vocabulary.mostFrequent k).words.map (fun u => (e.get u).getD [])).get? j =
      e.get u
    rw [List.get?_map, vidx_get? hj]
    cases ho : e.get u with
    | none => rw [ho] at hsome; exact Bool.noConfusion hsome
    | some r => simp [ho]

/-- Witness for C6 at a concrete two-token embedding with `k = 1`. -/
theorem c6_most_frequent_frame_witness :
    ∃ ret : Embedding ℚ,
      Embedding.mostFrequent ⟨⟨[['a'], ['b']]⟩, [[1], [2]]⟩ 1 false =
        .ok (⟨⟨[['a'], ['b']]⟩, [[1], [2]]⟩, ret) ∧
      ret.len = min 1 (Embedding.len (α := ℚ) ⟨⟨[['a'], ['b']]⟩, [[1], [2]]⟩) ∧
      (∀ u ∈ ret.vocabulary.words, u ∈ [['a'], ['b']]) ∧
      (∀ u ∈ ret.vocabulary.words,
        ret.get u = Embedding.get ⟨⟨[['a'], ['b']]⟩, [[1], [2]]⟩ u) :=
  c6_most_frequent_frame ⟨⟨[['a'], ['b']]⟩, [[1], [2]]⟩ 1 (by decide)

/-! ## C2: truncated binary input (code bug) -/

/-- C2: evaluation of the binary parser on truncated inputs.  The claim
says any short read fails with `TruncatedInput`; the code instead (a)
returns successfully with the one remaining float silently broadcast
across the whole row when exactly 4 payload bytes remain of the 16 the
record `"dog "` with `layer1_size = 4` requires, (b) loops forever when
end of input is reached inside a token, and (c) only raises a `ValueError`
when the leftover byte count is not a multiple of 4. -/
theorem c2_truncation_behaviour :
    fromWord2vecBinary ([49, 32, 52, 10] ++ [100, 111, 103, 32] ++ [0, 0, 128, 63]) =
      .ok ([['d', 'o', 'g']], [[1065353216, 1065353216, 1065353216, 1065353216]]) ∧
    fromWord2vecBinary ([49, 32, 52, 10] ++ [100, 111]) = .hang ∧
    fromWord2vecBinary ([49, 32, 52, 10] ++ [100, 111, 103, 32] ++ List.replicate 15 0) =
      .err (.valueError "string size must be a multiple of element size") := by
  decide

/-! ## C1: binary record framing -/

theorem readWord_cons_space (tail : List Byte) : readWord (32 :: tail) = some ([], tail) := by
  simp [readWord]

theorem readWord_cons_newline (tail : List Byte) : readWord (10 :: tail) = readWord tail := by
  simp [readWord]

theorem readWord_cons_other {b : Byte} (hb32 : b ≠ 32) (hb10 : b ≠ 10) (tail : List Byte) :
    readWord (b :: tail) = (readWord tail).map (fun p => (b :: p.1, p.2)) := by
  simp [readWord, hb32, hb10]

theorem readWord_token {t : List Byte} (ht : ∀ b ∈ t, b ≠ 32 ∧ b ≠ 10) (rest : List Byte) :
    readWord (t ++ 32 :: rest) = some (t, rest) := by
  induction t with
  | nil => exact readWord_cons_space rest
  | cons b br ih =>
    have hb := ht b (List.mem_cons_self b br)
    rw [List.cons_append, readWord_cons_other hb.1 hb.2,
      ih (fun x hx => ht x (List.mem_cons_of_mem b hx))]
    rfl

theorem readLine_split {h : List Byte} (hh : ∀ b ∈ h, b ≠ 10) (rest : List Byte) :
    readLine (h ++ 10 :: rest) = (h ++ [10], rest) := by
  induction h with
  | nil => simp [readLine]
  | cons b br ih =>
    have hb := hh b (List.mem_cons_self b br)
    rw [List.cons_append, readLine, if_neg hb, ih (fun x hx => hh x (List.mem_cons_of_mem b hx))]
    rfl

theorem chunk4_full : ∀ (d : Nat) (l : List Byte), l.length = 4 * d →
    chunk4 l = some (leWords l) ∧ (leWords l).length = d
  | 0, l, h => by
    have : l = [] := List.length_eq_zero.1 (by omega)
    subst this
    exact ⟨rfl, rfl⟩
  | d + 1, l, h => by
    match l, h with
    | b0 :: b1 :: b2 :: b3 :: l', h => ?_
    simp only [List.length_cons] at h
    have hl' : l'.length = 4 * d := by omega
    have ih := chunk4_full d l' hl'
    constructor
    · show (chunk4 l').map (le32 b0 b1 b2 b3 :: ·) = _
      rw [ih.1]
      rfl
    · show (le32 b0 b1 b2 b3 :: leWords l').length = d + 1
      rw [List.length_cons, ih.2]

theorem asciiDecode_eq {l : List Byte} (h : ∀ b ∈ l, b < 128) :
    asciiDecode l = some (asciiStr l) := by
  unfold asciiDecode asciiStr
  rw [if_pos h]

theorem readRecords_ok (d : Nat) :
    ∀ (records : List (List Byte × List Byte)) (rest : List Byte),
      (∀ r ∈ records, recordWF d r) →
      readRecords d records.length ((records.map recBytes).join ++ rest) =
        .ok (records.map (fun r => asciiStr r.1), records.map (fun r => leWords r.2))
  | [], rest, _ => rfl
  | r :: rs, rest, hwf => by
    have hr := hwf r (List.mem_cons_self r rs)
    have hshape : ((r :: rs).map recBytes).join ++ rest =
        r.1 ++ 32 :: (r.2 ++ ((rs.map recBytes).join ++ rest)) := by
      simp [recBytes, List.append_assoc]
    have htok : ∀ b ∈ r.1, b ≠ 32 ∧ b ≠ 10 := fun b hb => ⟨(hr.1 b hb).2.1, (hr.1 b hb).2.2⟩
    have hascii : ∀ b ∈ r.1, b < 128 := fun b hb => (hr.1 b hb).1
    have hchunk := chunk4_full d r.2 hr.2
    have hrow : (npFromstringF32 ((r.2 ++ ((rs.map recBytes).join ++ rest)).take (4 * d))).bind
        (npSetRow d) = .ok (leWords r.2) := by
      rw [List.take_left' hr.2]
      unfold npFromstringF32
      rw [hchunk.1]
      show npSetRow d (leWords r.2) = .ok (leWords r.2)
      unfold npSetRow
      rw [if_pos hchunk.2]
    have ih := readRecords_ok d rs rest (fun x hx => hwf x (List.mem_cons_of_mem r hx))
    show readRecords d (rs.length + 1) (((r :: rs).map recBytes).join ++ rest) = _
    rw [hshape]
    simp only [readRecords, readWord_token htok, asciiDecode_eq hascii, hrow,
      List.drop_left' hr.2, ih, List.map_cons]

/-- C1: on any input whose header line parses to sizes `(v, d)` and whose
body is `v` well-formed records (token bytes free of space/newline and
ASCII-decodable, payload exactly `4*d` bytes) followed by anything, the
binary parser returns exactly the record tokens and the payload float32
words, index for index — so record `i` consumes exactly
`len(token_i) + 1 + 4*d` bytes.  Moreover the token loop treats a `0x20`
byte as terminator (not part of the token), drops `0x0A` bytes, and
appends every other byte. -/
theorem c1_binary_record_framing (hdr : List Byte) (v d : Nat)
    (records : List (List Byte × List Byte)) (rest : List Byte)
    (hnl : ∀ b ∈ hdr, b ≠ 10) (hlt : ∀ b ∈ hdr, b < 128)
    (hparse : parseDims (asciiStr (hdr ++ [10])) = .ok (v, d))
    (hv : records.length = v)
    (hwf : ∀ r ∈ records, recordWF d r) :
    fromWord2vecBinary (hdr ++ 10 :: ((records.map recBytes).join ++ rest)) =
      .ok (records.map (fun r => asciiStr r.1), records.map (fun r => leWords r.2)) ∧
    (∀ tail, readWord (32 :: tail) = some ([], tail)) ∧
    (∀ tail, readWord (10 :: tail) = readWord tail) ∧
    (∀ (b : Byte) (tail : List Byte), b ≠ 32 → b ≠ 10 →
      readWord (b :: tail) = (readWord tail).map (fun p => (b :: p.1, p.2))) := by
  refine ⟨?_, readWord_cons_space, readWord_cons_newline,
    fun b tail h1 h2 => readWord_cons_other h1 h2 tail⟩
  have hline := readLine_split hnl ((records.map recBytes).join ++ rest)
  have hlt' : ∀ b ∈ hdr ++ [10], b < 128 := by
    intro b hb
    rcases List.mem_append.1 hb with h1 | h2
    · exact hlt b h1
    · have hb10 : b = 10 := by simpa using h2
      subst hb10
      decide
  subst hv
  simp only [fromWord2vecBinary, hline, asciiDecode_eq hlt', hparse,
    readRecords_ok d records rest hwf]

/-- Witness for C1: header `"2 2"`, records `"dog"` and `"cat"` with two
little-endian float32 payload words each, and two trailing junk bytes that
the parser must not consume. -/
theorem c1_binary_record_framing_witness :
    fromWord2vecBinary ([50, 32, 50] ++ 10 ::
        (([([100, 111, 103], [0, 0, 128, 63, 0, 0, 0, 64]),
           ([99, 97, 116], [0, 0, 64, 64, 0, 0, 128, 64])].map recBytes).join ++ [9, 9])) =
      .ok ([['d', 'o', 'g'], ['c', 'a', 't']],
        [[1065353216, 1073741824], [1077936128, 1082130432]]) := by
  have h := (c1_binary_record_framing [50, 32, 50] 2 2
    [([100, 111, 103], [0, 0, 128, 63, 0, 0, 0, 64]),
     ([99, 97, 116], [0, 0, 64, 64, 0, 0, 128, 64])] [9, 9]
    (by decide) (by decide) (by decide) (by decide) (by decide)).1
  exact h.trans (by decide)

/-! ## C3: text parser -/

theorem floatE_ok {f : Str} {q : ℚ} (h : floatOfChars f = some q) : floatE f = .ok q := by
  unfold floatE
  rw [h]

theorem floatE_err {f : Str} (h : floatOfChars f = none) :
    floatE f = .error (.valueError ("could not convert string to float: " ++ String.mk f)) := by
  unfold floatE
  rw [h]

theorem mapM_err_at {β γ : Type} (f : β → Except PyErr γ) (e : PyErr) :
    ∀ {good : List β} {qs : List γ} (bad : β) (more : List β),
      List.Forall₂ (fun a b => f a = .ok b) good qs → f bad = .error e →
      (good ++ bad :: more).mapM f = .error e
  | [], [], bad, more, .nil, hbad => by
    simp only [List.nil_append, List.mapM_cons, hbad]
    rfl
  | x :: xs, y :: ys, bad, more, .cons hx hrest, hbad => by
    have ih := mapM_err_at f e bad more hrest hbad
    simp only [List.cons_append, List.mapM_cons, hx, ih]
    rfl

theorem textRecords_cons_ok (d lineNo : Nat) (line : Str) (rest wordsAcc : List Str)
    (mat mat2 : List (List ℚ)) (w : Str) (fs : List Str) (weights : List ℚ)
    (hsplit : pySplit line = w :: fs) (hflen : fs.length = d)
    (hmapM : fs.mapM floatE = .ok weights)
    (hset : npSetRowAt mat lineNo weights = .ok mat2) :
    textRecords d lineNo (line :: rest) wordsAcc mat =
      textRecords d (lineNo + 1) rest (wordsAcc ++ [w]) mat2 := by
  simp only [textRecords, hsplit, hflen, ne_eq, not_true_eq_false, if_false, hmapM, hset]

theorem npSetRowAt_pad (v : Nat) (pre : List (List ℚ)) (z r : List ℚ)
    (hlt : pre.length < v) :
    npSetRowAt (pre ++ List.replicate (v - pre.length) z) pre.length r =
      .ok ((pre ++ [r]) ++ List.replicate (v - (pre.length + 1)) z) := by
  have hrep : List.replicate (v - pre.length) z = z :: List.replicate (v - (pre.length + 1)) z := by
    have : v - pre.length = (v - (pre.length + 1)) + 1 := by omega
    rw [this, List.replicate_succ]
  unfold npSetRowAt
  rw [if_pos (by simp; omega)]
  rw [hrep, List.set_append_right _ _ (Nat.le_refl _), Nat.sub_self, List.set_cons_zero]
  simp

theorem textRecords_prefix (d v : Nat) :
    ∀ (ls : List Str) (records : List (Str × List ℚ)) (tail : List Str)
      (i : Nat) (wordsAcc : List Str) (pre : List (List ℚ)),
      List.Forall₂ (lineRec d) ls records →
      pre.length = i →
      i + ls.length ≤ v →
      textRecords d i (ls ++ tail) wordsAcc
          (pre ++ List.replicate (v - i) (List.replicate d (0 : ℚ))) =
        textRecords d (i + ls.length) tail (wordsAcc ++ records.map (·.1))
          ((pre ++ records.map (·.2)) ++
            List.replicate (v - i - records.length) (List.replicate d (0 : ℚ)))
  | [], records, tail, i, wordsAcc, pre, hfa, hpre, hle => by
    cases hfa
    simp
  | ℓ :: ls', records, tail, i, wordsAcc, pre, hfa, hpre, hle => by
    cases hfa with
    | cons hr hrest =>
      rename_i r rs'
      obtain ⟨fs, hsplit, hflen, hfloats⟩ := hr
      have hmapM : fs.mapM floatE = .ok r.2 :=
        mapM_ok_of_forall₂ floatE (hfloats.imp (fun _ _ hf => floatE_ok hf))
      have hlt : pre.length < v := by
        simp only [List.length_cons] at hle
        omega
      have hset := npSetRowAt_pad v pre (List.replicate d (0 : ℚ)) r.2 hlt
      rw [hpre] at hset
      have hstep := textRecords_cons_ok d i ℓ (ls' ++ tail) wordsAcc
        (pre ++ List.replicate (v - i) (List.replicate d (0 : ℚ)))
        ((pre ++ [r.2]) ++ List.replicate (v - (i + 1)) (List.replicate d (0 : ℚ)))
        r.1 fs r.2 hsplit hflen hmapM (by rw [← hpre] at hset ⊢; exact hset)
      rw [List.cons_append, hstep]
      have ih := textRecords_prefix d v ls' rs' tail (i + 1) (wordsAcc ++ [r.1])
        (pre ++ [r.2]) hrest (by simp [hpre]) (by simp only [List.length_cons] at hle; omega)
      rw [ih]
      have e1 : i + 1 + ls'.length = i + (ℓ :: ls').length := by simp; omega
      have e2 : (wordsAcc ++ [r.1]) ++ rs'.map (·.1) = wordsAcc ++ (r :: rs').map (·.1) := by
        simp
      have e3 : ((pre ++ [r.2]) ++ rs'.map (·.2)) ++
          List.replicate (v - (i + 1) - rs'.length) (List.replicate d (0 : ℚ)) =
          (pre ++ (r :: rs').map (·.2)) ++
            List.replicate (v - i - (r :: rs').length) (List.replicate d (0 : ℚ)) := by
        have ecnt : v - (i + 1) - rs'.length = v - i - (r :: rs').length := by
          simp only [List.length_cons]
          omega
        simp [ecnt]
      rw [e1, e2, e3]

theorem textRecords_all (v d : Nat) (dataLines : List Str) (records : List (Str × List ℚ))
    (hfa : List.Forall₂ (lineRec d) dataLines records) (hle : dataLines.length ≤ v)
    (tail : List Str) :
    textRecords d 0 (dataLines ++ tail) []
        (List.replicate v (List.replicate d (0 : ℚ))) =
      textRecords d dataLines.length tail (records.map (·.1))
        (records.map (·.2) ++
          List.replicate (v - records.length) (List.replicate d (0 : ℚ))) := by
  have h0 := textRecords_prefix d v dataLines records tail 0 [] [] hfa rfl (by omega)
  simp only [Nat.zero_add, Nat.sub_zero, List.nil_append] at h0
  exact h0

/-- C3 counterexample: with header `"1 1"` and the two well-formed data
lines `"a 1.0"` and `"b 2.0"` — each splitting into a token and exactly
`layer1_size` parseable float fields — the claim requires token `"b"` at
position 1 with its row; but the code iterates over ALL remaining lines
while the matrix has only `vocab_size = 1` rows, so it raises `IndexError`
instead of returning. -/
theorem c3_counterexample :
    pySplit "a 1.0".toList = ["a".toList, "1.0".toList] ∧
    pySplit "b 2.0".toList = ["b".toList, "2.0".toList] ∧
    (floatOfChars "1.0".toList).isSome = true ∧
    (floatOfChars "2.0".toList).isSome = true ∧
    fromWord2vecText ["1 1".toList, "a 1.0".toList, "b 2.0".toList] = .error .indexError := by
  decide

/-- C3 amended: for a valid header `(v, d)`, (1) when the data lines each
split into a token plus exactly `d` parseable float fields and number at
most `v`, the parser returns the tokens and parsed rows index for index
(missing rows staying zero); (2) a line with a wrong field count aborts
with the `ValueError` naming that 0-based line number; (3) a field that is
not a valid float aborts with the float `ValueError`, which does NOT name
the line number; (4) lines beyond `v` raise `IndexError` (see the
counterexample); and the spec's concrete example loads to an `Embedding`
with shape `(3, 2)` and `get "b" = [0.5, -0.5]`. -/
theorem c3_text_parser_amended :
    (∀ (h : Str) (v d : Nat) (dataLines : List Str) (records : List (Str × List ℚ)),
      parseDims h = .ok (v, d) →
      List.Forall₂ (lineRec d) dataLines records →
      dataLines.length ≤ v →
      fromWord2vecText (h :: dataLines) =
        .ok (records.map (·.1), records.map (·.2) ++
          List.replicate (v - records.length) (List.replicate d (0 : ℚ)))) ∧
    (∀ (h : Str) (v d : Nat) (goodLines : List Str) (records : List (Str × List ℚ))
        (badLine : Str) (restLines : List Str),
      parseDims h = .ok (v, d) →
      List.Forall₂ (lineRec d) goodLines records →
      goodLines.length ≤ v →
      (pySplit badLine).length ≠ d + 1 →
      fromWord2vecText (h :: (goodLines ++ badLine :: restLines)) =
        .error (.valueError ("invalid vector on line " ++ toString goodLines.length ++
          " (is this really the text format?)"))) ∧
    (∀ (h : Str) (v d : Nat) (goodLines : List Str) (records : List (Str × List ℚ))
        (badLine : Str) (restLines : List Str) (w : Str) (goodFields : List Str)
        (qs : List ℚ) (badField : Str) (moreFields : List Str),
      parseDims h = .ok (v, d) →
      List.Forall₂ (lineRec d) goodLines records →
      goodLines.length ≤ v →
      pySplit badLine = w :: (goodFields ++ badField :: moreFields) →
      (goodFields ++ badField :: moreFields).length = d →
      List.Forall₂ (fun f q => floatOfChars f = some q) goodFields qs →
      floatOfChars badField = none →
      fromWord2vecText (h :: (goodLines ++ badLine :: restLines)) =
        .error (.valueError ("could not convert string to float: " ++ String.mk badField))) ∧
    (∃ emb : Embedding ℚ,
      fromWord2vecTextEmb ["3 2".toList, "a 1.0 2.0".toList, "b 0.5 -0.5".toList,
        "c 3.3 4.4".toList] = .ok emb ∧
      emb.shape = (3, 2) ∧
      emb.get "b".toList = some [mkRat 1 2, mkRat (-1) 2]) := by
  refine ⟨?_, ?_, ?_, ?_⟩
  · intro h v d dataLines records hparse hfa hle
    have hfin := textRecords_all v d dataLines records hfa hle []
    rw [List.append_nil] at hfin
    simp only [fromWord2vecText, hparse, hfin, textRecords, hfa.length_eq]
  · intro h v d goodLines records badLine restLines hparse hfa hle hbad
    have hfin := textRecords_all v d goodLines records hfa hle (badLine :: restLines)
    simp only [fromWord2vecText, hparse, hfin]
    cases hps : pySplit badLine with
    | nil => simp [textRecords, hps]
    | cons w fields =>
      have hfl : fields.length ≠ d := by
        rw [hps] at hbad
        simp only [List.length_cons] at hbad
        omega
      simp [textRecords, hps, hfl]
  · intro h v d goodLines records badLine restLines w goodFields qs badField moreFields
      hparse hfa hle hps hlen hgood hbadf
    have hfin := textRecords_all v d goodLines records hfa hle (badLine :: restLines)
    simp only [fromWord2vecText, hparse, hfin]
    have hmapErr : (goodFields ++ badField :: moreFields).mapM floatE =
        .error (.valueError ("could not convert string to float: " ++ String.mk badField)) :=
      mapM_err_at floatE _ badField moreFields
        (hgood.imp (fun _ _ hf => floatE_ok hf)) (floatE_err hbadf)
    simp only [textRecords, hps, hlen, ne_eq, not_true_eq_false, if_false, hmapErr]
  · exact ⟨⟨⟨["a".toList, "b".toList, "c".toList]⟩,
      [[1, 2], [mkRat 1 2, mkRat (-1) 2], [mkRat 33 10, mkRat 22 5]]⟩,
      by decide, by decide, by decide⟩

/-- Witness for C3 amended: the three hypothesis-bearing parts applied at
concrete inputs — a well-formed two-line file, a short second line, and an
unparseable float field. -/
theorem c3_text_parser_amended_witness :
    fromWord2vecText ["3 1".toList, "a 1.0".toList, "b 2.5".toList] =
      .ok (["a".toList, "b".toList], [[1], [mkRat 5 2], [0]]) ∧
    fromWord2vecText ["2 2".toList, "a 1.0 2.0".toList, "b 1.0".toList] =
      .error (.valueError "invalid vector on line 1 (is this really the text format?)") ∧
    fromWord2vecText ["1 2".toList, "a 1.0 xx".toList] =
      .error (.valueError "could not convert string to float: xx") := by
  refine ⟨?_, ?_, ?_⟩
  · have h := c3_text_parser_amended.1 "3 1".toList 3 1
      ["a 1.0".toList, "b 2.5".toList]
      [("a".toList, [1]), ("b".toList, [mkRat 5 2])]
      (by decide)
      (.cons ⟨["1.0".toList], by decide, by decide, .cons (by decide) .nil⟩
        (.cons ⟨["2.5".toList], by decide, by decide, .cons (by decide) .nil⟩ .nil))
      (by decide)
    exact h.trans (by decide)
  · have h := c3_text_parser_amended.2.1 "2 2".toList 2 2
      ["a 1.0 2.0".toList] [("a".toList, [1, 2])] "b 1.0".toList []
      (by decide)
      (.cons ⟨["1.0".toList, "2.0".toList], by decide, by decide,
        .cons (by decide) (.cons (by decide) .nil)⟩ .nil)
      (by decide) (by decide)
    exact h.trans (by decide)
  · have h := c3_text_parser_amended.2.2.1 "1 2".toList 1 2
      [] [] "a 1.0 xx".toList [] "a".toList ["1.0".toList] [1] "xx".toList []
      (by decide) .nil (by decide) (by decide) (by decide)
      (.cons (by decide) .nil) (by decide)
    exact h.trans (by decide)

/-! ## C9: the loaders close caller-supplied handles too -/

/-- C9 counterexample: a reader given an already-open handle (here handle
7) closes it even though it did not open it, contradicting the claim that
a caller-supplied handle is never closed by the loader. -/
theorem c9_counterexample :
    (binaryReaderTrace (.handle 7) 0).closedByLoader = [7] ∧
    (binaryReaderTrace (.handle 7) 0).openedByLoader = [] := by
  decide

/-- C9 amended: every handle a loader call opens is closed before it
returns, and the `fin` handle of each `with` block — the caller's own
handle when one was supplied — is always closed. -/
theorem c9_amended_scoped (src : PySource) (fresh : Nat) (fv : Option PySource)
    (bin : Bool) (f1 f2 : Nat) :
    (binaryReaderTrace src fresh).closedByLoader = [(pyOpen src fresh).1] ∧
    (textReaderTrace src fresh).closedByLoader = [(pyOpen src fresh).1] ∧
    (vocabReaderTrace src fresh).closedByLoader = [(pyOpen src fresh).1] ∧
    (∀ h ∈ (binaryReaderTrace src fresh).openedByLoader,
      h ∈ (binaryReaderTrace src fresh).closedByLoader) ∧
    (∀ h ∈ (fromWord2vecTrace src fv bin f1 f2).openedByLoader,
      h ∈ (fromWord2vecTrace src fv bin f1 f2).closedByLoader) := by
  have key : ∀ (s : PySource) (fr x : Nat), x ∈ (readerTrace s fr).openedByLoader →
      x ∈ (readerTrace s fr).closedByLoader := by
    intro s fr x hx
    cases s with
    | path p => simpa [readerTrace, pyOpen] using hx
    | handle k => simp [readerTrace, pyOpen] at hx
  refine ⟨rfl, rfl, rfl, fun h hm => key src fresh h hm, ?_⟩
  intro h hmem
  cases fv with
  | none =>
    cases bin with
    | false =>
      simp only [fromWord2vecTrace, textReaderTrace, Bool.false_eq_true, if_false,
        List.nil_append] at hmem ⊢
      exact key src f2 h hmem
    | true =>
      simp only [fromWord2vecTrace, binaryReaderTrace, if_true, List.nil_append] at hmem ⊢
      exact key src f2 h hmem
  | some v =>
    have hsplit : h ∈ (vocabReaderTrace v f1).openedByLoader ∨
        h ∈ ((if bin then binaryReaderTrace src f2 else textReaderTrace src f2)).openedByLoader := by
      cases bin with
      | false =>
        simpa [fromWord2vecTrace, Bool.false_eq_true, if_false, List.mem_append] using hmem
      | true =>
        simpa [fromWord2vecTrace, if_true, List.mem_append] using hmem
    have hgoal : h ∈ (vocabReaderTrace v f1).closedByLoader ∨
        h ∈ ((if bin then binaryReaderTrace src f2 else textReaderTrace src f2)).closedByLoader := by
      rcases hsplit with h1 | h2
      · exact Or.inl (key v f1 h h1)
      · refine Or.inr ?_
        cases bin with
        | false => simpa [textReaderTrace] using key src f2 h (by simpa [textReaderTrace] using h2)
        | true => simpa [binaryReaderTrace] using key src f2 h (by simpa [binaryReaderTrace] using h2)
    cases bin with
    | false =>
      simp only [fromWord2vecTrace, Bool.false_eq_true, if_false, List.mem_append] at hgoal ⊢
      simpa [Bool.false_eq_true, if_false] using hgoal
    | true =>
      simp only [fromWord2vecTrace, if_true, List.mem_append] at hgoal ⊢
      simpa [if_true] using hgoal

/-- Witness for C9 amended: on a path source the fresh handle 3 is both
opened and closed. -/
theorem c9_amended_scoped_witness :
    3 ∈ (binaryReaderTrace (.path "vecs.bin") 3).closedByLoader :=
  (c9_amended_scoped (.path "vecs.bin") 3 none true 0 0).2.2.2.1 3 (by decide)

/-! ## C10: `from_gensim` reads the unbound name `word_count` -/

/-- C10: for every model with a non-empty vocabulary (and in-range `syn0`
indices, as any real model has), `from_gensim` raises `NameError` for the
never-bound name `word_count` on the first loop iteration, so the adapter
can never return an `Embedding` for a non-empty model. -/
theorem c10_from_gensim (model : GensimModel) (hne : model.vocab ≠ [])
    (hwf : ∀ p ∈ model.vocab, p.2.index < model.syn0.length) :
    fromGensim model = .error (.nameError "word_count") := by
  have hperm : (model.vocab.insertionSort (fun a b => b.2.count ≤ a.2.count)).Perm model.vocab :=
    List.perm_insertionSort _ _
  cases hsort : model.vocab.insertionSort (fun a b => b.2.count ≤ a.2.count) with
  | nil =>
    rw [hsort] at hperm
    exact absurd hperm.symm.eq_nil hne
  | cons s0 srest =>
    rw [hsort] at hperm
    have hs0 : s0 ∈ model.vocab := hperm.mem_iff.1 (List.mem_cons_self s0 srest)
    have hidx : s0.2.index < model.syn0.length := hwf s0 hs0
    have hrow : model.syn0.get? s0.2.index = some (model.syn0.get ⟨s0.2.index, hidx⟩) :=
      List.get?_eq_get hidx
    have hstep : gensimStep model.syn0 [] s0 = .error (.nameError "word_count") := by
      unfold gensimStep
      rw [hrow]
      show (if "word_count" ∈ gensimLocals then
          Except.ok ([] ++ [model.syn0.get ⟨s0.2.index, hidx⟩])
        else Except.error (PyErr.nameError "word_count")) = _
      rw [if_neg (by decide)]
    simp only [fromGensim]
    rw [hsort]
    simp only [List.foldlM_cons, hstep]
    rfl

/-- Witness for C10: a concrete one-entry model fails with the
`word_count` `NameError`. -/
theorem c10_from_gensim_witness :
    fromGensim ⟨[(['a'], ⟨3, 0⟩)], [[1]]⟩ = .error (.nameError "word_count") :=
  c10_from_gensim ⟨[(['a'], ⟨3, 0⟩)], [[1]]⟩ (by decide) (by decide)

/-! ## C8: round trip through the text format — digit lemmas -/

theorem ofDigitsLE_natDigitsAux : ∀ (fuel n : Nat), n ≤ fuel →
    ofDigitsLE (natDigitsAux fuel n) = n
  | 0, n, h => by
    have : n = 0 := by omega
    subst this
    rfl
  | fuel + 1, n, h => by
    by_cases hn : n = 0
    · subst hn
      simp [natDigitsAux, ofDigitsLE]
    · have hdiv : n / 10 ≤ fuel := by
        have := Nat.div_lt_self (Nat.pos_of_ne_zero hn) (by omega : 1 < 10)
        omega
      have ih := ofDigitsLE_natDigitsAux fuel (n / 10) hdiv
      simp only [natDigitsAux, if_neg hn, ofDigitsLE, ih]
      omega

theorem natDigitsAux_lt : ∀ (fuel n : Nat), ∀ d ∈ natDigitsAux fuel n, d < 10
  | 0, _, d, h => by simp [natDigitsAux] at h
  | fuel + 1, n, d, h => by
    by_cases hn : n = 0
    · subst hn
      simp [natDigitsAux] at h
    · simp only [natDigitsAux, if_neg hn, List.mem_cons] at h
      rcases h with h | h
      · subst h
        exact Nat.mod_lt n (by omega)
      · exact natDigitsAux_lt fuel (n / 10) d h

theorem digitVal_digitChar {d : Nat} (h : d < 10) : digitVal (digitChar d) = d := by
  interval_cases d <;> rfl

theorem isDigitC_digitChar {d : Nat} (h : d < 10) : isDigitC (digitChar d) = true := by
  interval_cases d <;> rfl

theorem foldr_ofDigitsLE : ∀ l : List Nat,
    List.foldr (fun x y => 10 * y + x) 0 l = ofDigitsLE l
  | [] => rfl
  | d :: ds => by
    simp only [List.foldr_cons, foldr_ofDigitsLE ds, ofDigitsLE]
    omega

theorem natOfDigits_foldr (l : List Nat) :
    natOfDigits l.reverse = ofDigitsLE l := by
  unfold natOfDigits
  rw [List.foldl_reverse]
  exact foldr_ofDigitsLE l

theorem printNat_spec (n : Nat) :
    printNat n ≠ [] ∧ (∀ c ∈ printNat n, isDigitC c = true) ∧
      natOfDigits ((printNat n).map digitVal) = n := by
  by_cases hn : n = 0
  · subst hn
    refine ⟨by decide, ?_, by decide⟩
    intro c hc
    have : c = '0' := by simpa [printNat] using hc
    subst this
    decide
  · unfold printNat
    rw [if_neg hn]
    have hne : natDigitsAux n n ≠ [] := by
      cases hfuel : n with
      | zero => exact absurd hfuel hn
      | succ m =>
        unfold natDigitsAux
        rw [if_neg (hfuel ▸ hn)]
        exact List.cons_ne_nil _ _
    refine ⟨?_, ?_, ?_⟩
    · intro hcon
      rw [List.map_eq_nil, List.reverse_eq_nil_iff] at hcon
      exact hne hcon
    · intro c hc
      rw [List.mem_map] at hc
      obtain ⟨d, hd, rfl⟩ := hc
      rw [List.mem_reverse] at hd
      exact isDigitC_digitChar (natDigitsAux_lt n n d hd)
    · rw [List.map_map]
      have hmap : (natDigitsAux n n).reverse.map (digitVal ∘ digitChar) =
          (natDigitsAux n n).reverse := by
        nth_rewrite 2 [← List.map_id ((natDigitsAux n n).reverse)]
        apply List.map_congr_left
        intro d hd
        rw [List.mem_reverse] at hd
        exact digitVal_digitChar (natDigitsAux_lt n n d hd)
      rw [hmap, natOfDigits_foldr]
      exact ofDigitsLE_natDigitsAux n n (Nat.le_refl n)

theorem natOfDigits_replicate_zero (k : Nat) (vs : List Nat) :
    natOfDigits (List.replicate k 0 ++ vs) = natOfDigits vs := by
  unfold natOfDigits
  rw [List.foldl_append]
  have : List.foldl (fun a d => 10 * a + d) 0 (List.replicate k 0) = 0 := by
    induction k with
    | zero => rfl
    | succ j ih => simpa [List.replicate_succ] using ih
  rw [this]

theorem padZeros_spec (k : Nat) (n : Nat) :
    (∀ c ∈ padZeros k (printNat n), isDigitC c = true) ∧
      k ≤ (padZeros k (printNat n)).length ∧
      natOfDigits ((padZeros k (printNat n)).map digitVal) = n ∧
      padZeros k (printNat n) ≠ [] := by
  obtain ⟨hne, hdig, hval⟩ := printNat_spec n
  unfold padZeros
  refine ⟨?_, ?_, ?_, ?_⟩
  · intro c hc
    rcases List.mem_append.1 hc with h1 | h2
    · have : c = '0' := by simpa using List.eq_of_mem_replicate h1
      subst this
      decide
    · exact hdig c h2
  · rw [List.length_append, List.length_replicate]
    omega
  · rw [List.map_append, List.map_replicate]
    have : digitVal '0' = 0 := by decide
    rw [this, natOfDigits_replicate_zero, hval]
  · intro hcon
    rw [List.append_eq_nil] at hcon
    exact hne hcon.2

/-! ## C8: splitting and parsing the written text back -/

theorem pySplitAux_word {w : Str} (hw : ∀ c ∈ w, isPySpace c = false) :
    ∀ (s : Str) (acc : Str), pySplitAux (w ++ s) acc = pySplitAux s (w.reverse ++ acc) := by
  induction w with
  | nil => intro s acc; rfl
  | cons c w' ih =>
    intro s acc
    have hc := hw c (List.mem_cons_self c w')
    rw [List.cons_append, pySplitAux, if_neg (by rw [hc]; exact Bool.false_ne_true),
      ih (fun x hx => hw x (List.mem_cons_of_mem c hx)) s (c :: acc)]
    simp

theorem pySplit_word_append {w : Str} (hw : tokenWF w) (s : Str) :
    pySplit (w ++ ' ' :: s) = w :: pySplit s := by
  unfold pySplit
  rw [pySplitAux_word hw.2, List.append_nil]
  show pySplitAux (' ' :: s) w.reverse = _
  rw [pySplitAux, if_pos (by decide),
    if_neg (fun hc => hw.1 (by simpa [List.reverse_eq_nil_iff] using hc))]
  rw [List.reverse_reverse]

theorem pySplit_word {w : Str} (hw : tokenWF w) : pySplit w = [w] := by
  unfold pySplit
  have h0 := pySplitAux_word hw.2 [] []
  rw [List.append_nil, List.append_nil] at h0
  rw [h0]
  show (if w.reverse = [] then [] else [w.reverse.reverse]) = [w]
  rw [if_neg (fun hc => hw.1 (by simpa [List.reverse_eq_nil_iff] using hc)),
    List.reverse_reverse]

theorem pySplit_joinSp : ∀ ws : List Str, (∀ w ∈ ws, tokenWF w) →
    pySplit (joinSp ws) = ws
  | [], _ => rfl
  | [w], h => by
    rw [joinSp]
    exact pySplit_word (h w (List.mem_cons_self w []))
  | w :: w' :: rest, h => by
    rw [show joinSp (w :: w' :: rest) = w ++ ' ' :: joinSp (w' :: rest) from rfl,
      pySplit_word_append (h w (List.mem_cons_self _ _)),
      pySplit_joinSp (w' :: rest) (fun x hx => h x (List.mem_cons_of_mem w hx))]

theorem spanDigits_append {s : Str} (hs : ∀ c ∈ s, isDigitC c = true) (rest : Str) :
    spanDigits (s ++ rest) = (s.map digitVal ++ (spanDigits rest).1, (spanDigits rest).2) := by
  induction s with
  | nil => simp
  | cons c s' ih =>
    have hc := hs c (List.mem_cons_self c s')
    rw [List.cons_append, spanDigits, if_pos hc,
      ih (fun x hx => hs x (List.mem_cons_of_mem c hx))]
    rfl

theorem spanDigits_all {s : Str} (hs : ∀ c ∈ s, isDigitC c = true) :
    spanDigits s = (s.map digitVal, []) := by
  have h := spanDigits_append hs []
  rwa [List.append_nil, show spanDigits [] = ([], []) from rfl, List.append_nil] at h

theorem isDigitC_not_sign {c : Char} (h : isDigitC c = true) : c ≠ '-' ∧ c ≠ '+' := by
  constructor <;> intro hc <;> subst hc <;> exact Bool.noConfusion h

theorem isDigitC_not_space {c : Char} (h : isDigitC c = true) : isPySpace c = false := by
  unfold isDigitC at h
  unfold isPySpace
  rw [Bool.and_eq_true, decide_eq_true_eq, decide_eq_true_eq] at h
  simp only [Bool.or_eq_false_iff, decide_eq_false_iff_not]
  omega

theorem parseSignF_nosign {c : Char} (h1 : c ≠ '-') (h2 : c ≠ '+') (r : Str) :
    parseSignF (c :: r) = (false, c :: r) := by
  show (if c = '-' then ((true : Bool), r)
    else if c = '+' then ((false : Bool), r) else ((false : Bool), c :: r)) = (false, c :: r)
  rw [if_neg h1, if_neg h2]

theorem parseSignF_digits {s : Str} (hs : ∀ c ∈ s, isDigitC c = true) (hne : s ≠ []) :
    parseSignF s = (false, s) := by
  cases s with
  | nil => exact absurd rfl hne
  | cons c cs =>
    have hc := isDigitC_not_sign (hs c (List.mem_cons_self c cs))
    exact parseSignF_nosign hc.1 hc.2 cs

theorem parseInt_printNat (n : Nat) : parseInt? (printNat n) = some (n : Int) := by
  obtain ⟨hne, hdig, hval⟩ := printNat_spec n
  unfold parseInt?
  rw [parseSignF_digits hdig hne, spanDigits_all hdig]
  rw [if_neg (by
    simp only [List.map_eq_nil, ne_eq, not_true_eq_false, or_false]
    exact hne)]
  rw [if_neg Bool.false_ne_true, hval]

theorem tokenWF_printNat (n : Nat) : tokenWF (printNat n) := by
  obtain ⟨hne, hdig, _⟩ := printNat_spec n
  exact ⟨hne, fun c hc => isDigitC_not_space (hdig c hc)⟩

theorem parseDims_printed (a b : Nat) :
    parseDims (printNat a ++ ' ' :: printNat b) = .ok (a, b) := by
  unfold parseDims
  rw [pySplit_word_append (tokenWF_printNat a), pySplit_word (tokenWF_printNat b)]
  have ha : parseIntE (printNat a) = .ok (a : Int) := by
    unfold parseIntE
    rw [parseInt_printNat a]
  have hb : parseIntE (printNat b) = .ok (b : Int) := by
    unfold parseIntE
    rw [parseInt_printNat b]
  simp only [List.mapM_cons, List.mapM_nil, ha, hb]
  show (if (a : Int) < 0 ∨ (b : Int) < 0 then
      Except.error (PyErr.valueError "negative dimensions are not allowed")
    else Except.ok ((a : Int).toNat, (b : Int).toNat)) = Except.ok (a, b)
  rw [if_neg (by rintro (hc | hc) <;> omega)]
  rw [Int.toNat_natCast, Int.toNat_natCast]

/-! ## C8: the printed decimal parses back to its exact value -/

theorem spanDigits_dot (fp : Str) : spanDigits ('.' :: fp) = ([], '.' :: fp) := rfl

theorem fracPart_dot (fp : Str) : fracPart ('.' :: fp) = spanDigits fp := rfl

theorem fracPart_nil : fracPart [] = ([], []) := rfl

theorem printDec_spec (x : Dec) :
    tokenWF (printDec x) ∧ floatOfChars (printDec x) = some (Dec.val x) := by
  obtain ⟨hdig, hlen, hval, hne⟩ := padZeros_spec (x.f + 1) x.m.natAbs
  have hip_fp := List.take_append_drop
    ((padZeros (x.f + 1) (printNat x.m.natAbs)).length - x.f)
    (padZeros (x.f + 1) (printNat x.m.natAbs))
  generalize hds : padZeros (x.f + 1) (printNat x.m.natAbs) = ds at *
  set ip := ds.take (ds.length - x.f) with hip
  set fp := ds.drop (ds.length - x.f) with hfp
  have hlds : x.f + 1 ≤ ds.length := hlen
  have hiplen : ip.length = ds.length - x.f := by
    rw [hip, List.length_take]
    omega
  have hfplen : fp.length = x.f := by
    rw [hfp, List.length_drop]
    omega
  have hipne : ip ≠ [] := by
    intro hcon
    have := congrArg List.length hcon
    rw [hiplen] at this
    simp at this
    omega
  have hipdig : ∀ c ∈ ip, isDigitC c = true :=
    fun c hc => hdig c (List.take_subset _ _ hc)
  have hfpdig : ∀ c ∈ fp, isDigitC c = true :=
    fun c hc => hdig c (List.drop_subset _ _ hc)
  have hvalipfp : natOfDigits ((ip ++ fp).map digitVal) = x.m.natAbs := by
    rw [hip_fp]
    exact hval
  have hsm : ∀ neg : Bool, (if neg then -(x.m.natAbs : Int) else (x.m.natAbs : Int)) = x.m →
      (if neg then -(natOfDigits (ip.map digitVal ++ fp.map digitVal) : Int)
        else (natOfDigits (ip.map digitVal ++ fp.map digitVal) : Int)) = x.m := by
    intro neg hneg
    rw [← List.map_append, hvalipfp]
    exact hneg
  have hbody : (if x.f = 0 then ip else ip ++ '.' :: fp) ≠ [] ∧
      (∀ c ∈ (if x.f = 0 then ip else ip ++ '.' :: fp), isPySpace c = false) := by
    constructor
    · by_cases hf : x.f = 0
      · rw [if_pos hf]; exact hipne
      · rw [if_neg hf]
        intro hcon
        rw [List.append_eq_nil] at hcon
        exact List.cons_ne_nil _ _ hcon.2
    · intro c hc
      by_cases hf : x.f = 0
      · rw [if_pos hf] at hc
        exact isDigitC_not_space (hipdig c hc)
      · rw [if_neg hf] at hc
        rcases List.mem_append.1 hc with h1 | h2
        · exact isDigitC_not_space (hipdig c h1)
        · rcases List.mem_cons.1 h2 with h3 | h4
          · subst h3; decide
          · exact isDigitC_not_space (hfpdig c h4)
  have hparse : ∀ neg : Bool,
      (if neg then -(x.m.natAbs : Int) else (x.m.natAbs : Int)) = x.m →
      floatTail neg (spanDigits (if x.f = 0 then ip else ip ++ '.' :: fp)).1
        (fracPart ((spanDigits (if x.f = 0 then ip else ip ++ '.' :: fp)).2)).1
        (fracPart ((spanDigits (if x.f = 0 then ip else ip ++ '.' :: fp)).2)).2 =
        some (Dec.val x) := by
    intro neg hneg
    by_cases hf : x.f = 0
    · rw [if_pos hf]
      have hipds : ip = ds := by
        rw [hip, hf, Nat.sub_zero, List.take_length]
      rw [spanDigits_all hipdig, fracPart_nil]
      unfold floatTail
      rw [if_neg (by
        intro hcon
        exact hipne (List.map_eq_nil.1 hcon.1))]
      show some (mkRat (if neg then -(natOfDigits (ip.map digitVal ++ [])) else
        (natOfDigits (ip.map digitVal ++ []) : Int)) (10 ^ (List.length ([] : List Nat)))) = _
      have hfpnil : fp = [] := by
        rw [hfp, hf, Nat.sub_zero, List.drop_length]
      have hthis : (if neg = true then -(natOfDigits (ip.map digitVal ++ ([] : List Nat)) : Int)
          else (natOfDigits (ip.map digitVal ++ ([] : List Nat)) : Int)) = x.m := by
        have h0 := hsm neg hneg
        rw [hfpnil] at h0
        simpa using h0
      rw [hthis]
      unfold Dec.val
      rw [hf]
      rfl
    · rw [if_neg hf]
      rw [spanDigits_append hipdig, spanDigits_dot, List.append_nil, fracPart_dot,
        spanDigits_all hfpdig]
      unfold floatTail
      rw [if_neg (by
        intro hcon
        exact hipne (List.map_eq_nil.1 hcon.1))]
      show some (mkRat (if neg then -(natOfDigits (ip.map digitVal ++ fp.map digitVal)) else
        (natOfDigits (ip.map digitVal ++ fp.map digitVal) : Int))
          (10 ^ (fp.map digitVal).length)) = _
      rw [hsm neg hneg, List.length_map, hfplen]
      rfl
  by_cases hm : x.m < 0
  · have hprint : printDec x = '-' :: (if x.f = 0 then ip else ip ++ '.' :: fp) := by
      unfold printDec
      rw [hds, if_pos hm]
      rfl
    constructor
    · rw [hprint]
      refine ⟨List.cons_ne_nil _ _, ?_⟩
      intro c hc
      rcases List.mem_cons.1 hc with h1 | h2
      · subst h1; decide
      · exact hbody.2 c h2
    · rw [hprint]
      unfold floatOfChars
      have hsign : parseSignF ('-' :: (if x.f = 0 then ip else ip ++ '.' :: fp)) =
          (true, (if x.f = 0 then ip else ip ++ '.' :: fp)) := rfl
      rw [hsign]
      exact hparse true (by
        have : ((x.m.natAbs : Int)) = -x.m := Int.ofNat_natAbs_of_nonpos (by omega)
        rw [if_pos rfl, this, neg_neg])
  · have hprint : printDec x = (if x.f = 0 then ip else ip ++ '.' :: fp) := by
      unfold printDec
      rw [hds, if_neg hm]
      rfl
    constructor
    · rw [hprint]
      exact ⟨hbody.1, hbody.2⟩
    · rw [hprint]
      unfold floatOfChars
      have hhead : parseSignF (if x.f = 0 then ip else ip ++ '.' :: fp) =
          (false, (if x.f = 0 then ip else ip ++ '.' :: fp)) := by
        by_cases hf : x.f = 0
        · rw [if_pos hf]
          exact parseSignF_digits hipdig hipne
        · rw [if_neg hf]
          cases hipc : ip with
          | nil => exact absurd hipc hipne
          | cons c cs =>
            have hc := isDigitC_not_sign (hipdig c (hipc ▸ List.mem_cons_self c cs))
            rw [List.cons_append]
            exact parseSignF_nosign hc.1 hc.2 _
      rw [hhead]
      exact hparse false (by
        rw [if_neg Bool.false_ne_true]
        exact Int.natAbs_of_nonneg (by omega))

/-! ## C8: assembling the round trip -/

theorem rows_forall₂ : ∀ r : List Dec,
    List.Forall₂ (fun f q => floatOfChars f = some q) (r.map printDec) (r.map Dec.val)
  | [] => .nil
  | x :: xs => .cons (printDec_spec x).2 (rows_forall₂ xs)

theorem lines_forall₂ (d : Nat) : ∀ (tokens : List Str) (rows : List (List Dec)),
    tokens.length = rows.length →
    (∀ r ∈ rows, r.length = d) →
    (∀ t ∈ tokens, tokenWF t) →
    List.Forall₂ (lineRec d)
      (List.zipWith (fun t r => t ++ ' ' :: joinSp (r.map printDec)) tokens rows)
      (List.zipWith (fun t r => (t, r.map Dec.val)) tokens rows)
  | [], [], _, _, _ => .nil
  | [], r :: rs, h, _, _ => by simp at h
  | t :: ts, [], h, _, _ => by simp at h
  | t :: ts, r :: rs, h, hrow, htok => by
    simp only [List.zipWith_cons_cons]
    refine .cons ?_ (lines_forall₂ d ts rs (by simpa using h)
      (fun x hx => hrow x (List.mem_cons_of_mem r hx))
      (fun x hx => htok x (List.mem_cons_of_mem t hx)))
    refine ⟨r.map printDec, ?_, ?_, rows_forall₂ r⟩
    · rw [pySplit_word_append (htok t (List.mem_cons_self t ts)),
        pySplit_joinSp (r.map printDec) (by
          intro w hw
          rw [List.mem_map] at hw
          obtain ⟨x, _, rfl⟩ := hw
          exact (printDec_spec x).1)]
    · rw [List.length_map]
      exact hrow r (List.mem_cons_self r rs)

theorem zipWith_pair_fst : ∀ (tokens : List Str) (rows : List (List Dec)),
    tokens.length = rows.length →
    (List.zipWith (fun t r => (t, r.map Dec.val)) tokens rows).map (·.1) = tokens
  | [], [], _ => rfl
  | [], _ :: _, h => by simp at h
  | _ :: _, [], h => by simp at h
  | t :: ts, r :: rs, h => by
    simp only [List.zipWith_cons_cons, List.map_cons]
    rw [zipWith_pair_fst ts rs (by simpa using h)]

theorem zipWith_pair_snd : ∀ (tokens : List Str) (rows : List (List Dec)),
    tokens.length = rows.length →
    (List.zipWith (fun t r => (t, r.map Dec.val)) tokens rows).map (·.2) =
      rows.map (fun r => r.map Dec.val)
  | [], [], _ => rfl
  | [], _ :: _, h => by simp at h
  | _ :: _, [], h => by simp at h
  | t :: ts, r :: rs, h => by
    simp only [List.zipWith_cons_cons, List.map_cons]
    rw [zipWith_pair_snd ts rs (by simpa using h)]

/-- C8: writing any token list (distinct, non-empty, whitespace-free
tokens) and any matching matrix of decimal fixed-point float values in the
word2vec text format, then loading the result with the text reader,
reproduces the same tokens in the same order and exactly the original
values (floats are modelled exactly, so "within float32 precision" is
exact equality here). -/
theorem c8_text_roundtrip (tokens : List Str) (rows : List (List Dec)) (d : Nat)
    (hnd : tokens.Nodup)
    (hlen : tokens.length = rows.length)
    (hrow : ∀ r ∈ rows, r.length = d)
    (htok : ∀ t ∈ tokens, tokenWF t) :
    fromWord2vecText (writeWord2vecText tokens rows d) =
      .ok (tokens, rows.map (fun r => r.map Dec.val)) := by
  unfold writeWord2vecText
  have hdls : (List.zipWith (fun t r => t ++ ' ' :: joinSp (r.map printDec)) tokens rows).length =
      tokens.length := by
    rw [List.length_zipWith, hlen, Nat.min_self]
  have hrecs : (List.zipWith (fun t r => (t, r.map Dec.val)) tokens rows).length =
      tokens.length := by
    rw [List.length_zipWith, hlen, Nat.min_self]
  have hfa := lines_forall₂ d tokens rows hlen hrow htok
  have hall := textRecords_all tokens.length d
    (List.zipWith (fun t r => t ++ ' ' :: joinSp (r.map printDec)) tokens rows)
    (List.zipWith (fun t r => (t, r.map Dec.val)) tokens rows)
    hfa (by rw [hdls]) []
  rw [List.append_nil] at hall
  simp only [fromWord2vecText, parseDims_printed, hall, textRecords, hrecs, Nat.sub_self,
    List.replicate_zero, List.append_nil]
  rw [zipWith_pair_fst tokens rows hlen, zipWith_pair_snd tokens rows hlen]

/-- Witness for C8: two tokens with a 2-column matrix of decimal values
(`1.5, -0.5; 3, 0.25`) survive the write/load round trip exactly. -/
theorem c8_text_roundtrip_witness :
    fromWord2vecText (writeWord2vecText ["a".toList, "b".toList]
        [[⟨15, 1⟩, ⟨-5, 1⟩], [⟨3, 0⟩, ⟨25, 2⟩]] 2) =
      .ok (["a".toList, "b".toList],
        [[mkRat 15 10, mkRat (-5) 10], [mkRat 3 1, mkRat 25 100]]) := by
  have h := c8_text_roundtrip ["a".toList, "b".toList]
    [[⟨15, 1⟩, ⟨-5, 1⟩], [⟨3, 0⟩, ⟨25, 2⟩]] 2
    (by decide) (by decide) (by decide) (by decide)
  exact h.trans (by decide)

end Polyglot
